import Mathlib

/-!
Verification of the bk_asset_tool repository (Banjo-Kazooie asset archive
extractor/constructor). The Rust sources `src/main.rs`,
`src/banjo_kazooie/mod.rs` and `src/banjo_kazooie/asset.rs` are shallowly
embedded below: bytes are `Nat` values (< 256 where the code guarantees it),
byte buffers are `List Nat`, machine-integer casts are explicit `% 256`,
`% 65536`, `% 2^32` operations, and Rust code that can panic (out-of-range
indexing / slicing, failed asserts) is embedded as `Option`/`Except`-returning
functions that return `none`/`.error` exactly where the Rust code panics.
The external rarezip compressor is a collaborator and is passed in as a pair
of function parameters `zip`/`unzip`.
-/

namespace BK

/-! Big-endian integer helpers, mirroring `u32::from_be_bytes`,
`u16::from_be_bytes`, `to_be_bytes` and the `as i8`/`as u8`/`as i16` casts. -/

def u16be (n : Nat) : List Nat := [n / 256 % 256, n % 256]

def u32be (n : Nat) : List Nat :=
  [n / 2 ^ 24 % 256, n / 2 ^ 16 % 256, n / 256 % 256, n % 256]

def u16dec (a b : Nat) : Nat := a * 256 + b

def u32dec (a b c d : Nat) : Nat := ((a * 256 + b) * 256 + c) * 256 + d

/-- Interpretation of a byte as a Rust `i8` (the `as i8` cast). -/
def toI8 (n : Nat) : Int :=
  if n % 256 < 128 then (n % 256 : Int) else (n % 256 : Int) - 256

/-- Interpretation of a 16-bit value as a Rust `i16` (the `as i16` cast). -/
def toI16 (n : Nat) : Int :=
  if n % 65536 < 32768 then (n % 65536 : Int) else (n % 65536 : Int) - 65536

/-- The `as u8` cast applied to an `i8` value. -/
def u8OfI8 (i : Int) : Nat := (i % 256).toNat

/-- Arithmetic shift right by 7 of an `i8` value, then cast back to `u8`:
embeds the Rust idiom `((b as i8) >> 7) as u8`. `Int.fdiv` by `2^7` is the
arithmetic shift. -/
def asrI8by7 (b : Nat) : Nat := u8OfI8 (Int.fdiv (toI8 b) 128)

/-! `slice::chunks_exact(n)`: maximal list of consecutive `n`-element chunks,
the remainder dropped. Implemented with a fuel parameter (initialised to the
list length) so that it is structurally recursive and kernel-reducible. -/

def chunksExactGo (n : Nat) : Nat → List Nat → List (List Nat)
  | 0, _ => []
  | fuel + 1, l =>
    if 0 < n ∧ n ≤ l.length then l.take n :: chunksExactGo n fuel (l.drop n)
    else []

def chunksExact (n : Nat) (l : List Nat) : List (List Nat) :=
  chunksExactGo n l.length l

theorem chunksExactGo_fuel (n : Nat) :
    ∀ f1 f2 l, l.length ≤ f1 → l.length ≤ f2 →
      chunksExactGo n f1 l = chunksExactGo n f2 l := by
  intro f1
  induction f1 with
  | zero =>
    intro f2 l h1 _
    have hl : l = [] := List.length_eq_zero.mp (Nat.le_zero.mp h1)
    subst hl
    cases f2 with
    | zero => rfl
    | succ f2 =>
      simp [chunksExactGo]
      intro hn h
      omega
  | succ f1 ih =>
    intro f2 l h1 h2
    cases f2 with
    | zero =>
      have hl : l = [] := List.length_eq_zero.mp (Nat.le_zero.mp h2)
      subst hl
      simp [chunksExactGo]
      intro hn h
      omega
    | succ f2 =>
      simp only [chunksExactGo]
      by_cases hc : 0 < n ∧ n ≤ l.length
      · simp only [if_pos hc]
        have hdrop : (l.drop n).length ≤ f1 := by
          simp [List.length_drop]; omega
        have hdrop2 : (l.drop n).length ≤ f2 := by
          simp [List.length_drop]; omega
        rw [ih f2 (l.drop n) hdrop hdrop2]
      · simp only [if_neg hc]

theorem chunksExact_nil (n : Nat) : chunksExact n [] = [] := rfl

theorem chunksExact_cons (n : Nat) (e l : List Nat) (he : e.length = n)
    (hn : 0 < n) : chunksExact n (e ++ l) = e :: chunksExact n l := by
  unfold chunksExact
  have hlen : (e ++ l).length = n + l.length := by simp [he]
  rw [hlen]
  have : n + l.length = (n - 1 + l.length) + 1 := by omega
  rw [this]
  simp only [chunksExactGo]
  have hcond : 0 < n ∧ n ≤ (e ++ l).length := by simp [he]; omega
  rw [if_pos hcond]
  have htake : (e ++ l).take n = e := by
    rw [← he]; exact List.take_left e l
  have hdrop : (e ++ l).drop n = l := by
    rw [← he]; exact List.drop_left e l
  rw [htake, hdrop]
  congr 1
  exact chunksExactGo_fuel n (n - 1 + l.length) l.length l (by omega) (by omega)

theorem chunksExact_flatten (n : Nat) (L : List (List Nat)) (hn : 0 < n)
    (h : ∀ e ∈ L, e.length = n) : chunksExact n L.flatten = L := by
  induction L with
  | nil => rfl
  | cons e L ih =>
    rw [List.flatten_cons, chunksExact_cons n e L.flatten (h e (by simp)) hn]
    rw [ih (fun e he => h e (by simp [he]))]

theorem chunksExact_ne_nil (n : Nat) (l : List Nat) (hn : 0 < n)
    (h : n ≤ l.length) : chunksExact n l ≠ [] := by
  unfold chunksExact
  have : ∃ f, l.length = f + 1 := ⟨l.length - 1, by omega⟩
  obtain ⟨f, hf⟩ := this
  rw [hf]
  simp only [chunksExactGo]
  rw [if_pos ⟨hn, h⟩]
  simp

/-! Image formats (`enum ImgFmt` in asset.rs). -/

inductive ImgFmt where
  | ci4 | ci8 | i4 | i8 | rgba16 | rgba32 | ia4 | ia8
  | unknown (code : Nat)
deriving DecidableEq

/-! The `Texture` pixel-format converters (asset.rs, `impl Texture`).
Each 16-bit RGBA5551 value is expanded exactly as in the source:
`r32 = (r16 << 3) | (r16 >> 3)` and the 1-bit alpha is sign-extended via
`(((a16 << 7) as i8) >> 7) as u8`. -/

def expand5551 (hi lo : Nat) : List Nat :=
  let val := u16dec hi lo
  let r16 := (val >>> 11) &&& 0x1f
  let g16 := (val >>> 6) &&& 0x1f
  let b16 := (val >>> 1) &&& 0x1f
  let a16 := val &&& 0x1
  let r32 := (r16 <<< 3) ||| (r16 >>> 3)
  let g32 := (g16 <<< 3) ||| (g16 >>> 3)
  let b32 := (b16 <<< 3) ||| (b16 >>> 3)
  let a32 := asrI8by7 ((a16 <<< 7) % 256)
  [r32, g32, b32, a32]

namespace Texture

def rgba16_to_rgba32 (rgba16 : List Nat) : List Nat :=
  ((chunksExact 2 rgba16).map (fun a => expand5551 (a.getD 0 0) (a.getD 1 0))).flatten

/-- Palette decoding shared by `ci4_to_rgba32` and `ci8_to_rgba32` (the source
duplicates the same RGBA5551 expansion inline in both). -/
def palDecode (palatte : List Nat) : List (List Nat) :=
  (chunksExact 2 palatte).map (fun a => expand5551 (a.getD 0 0) (a.getD 1 0))

def ci4_to_rgba32 (ci4 palatte : List Nat) : List Nat :=
  let pal := palDecode palatte
  (((ci4.map (fun a => [a >>> 4, a &&& 0xF])).flatten).map
    (fun indx => pal.getD indx [0, 0, 0, 0])).flatten

def ci8_to_rgba32 (ci8 palatte : List Nat) : List Nat :=
  let pal := palDecode palatte
  (ci8.map (fun indx => pal.getD indx [0, 0, 0, 0])).flatten

def i4_to_rgba32 (i_4 : List Nat) : List Nat :=
  (i_4.map (fun a =>
    let val1 := (a &&& 0xF0) ||| (a >>> 4)
    let val2 := ((a <<< 4) % 256) ||| (a &&& 0xF)
    [val1, val1, val1, 0xFF, val2, val2, val2, 0xFF])).flatten

def i8_to_rgba32 (i_8 : List Nat) : List Nat :=
  (i_8.map (fun a => [a, a, a, 0xFF])).flatten

def ia4_to_rgba32 (ia4 : List Nat) : List Nat :=
  (ia4.map (fun a =>
    let i1 := (a &&& 0xE0) ||| (a >>> 3) ||| (a >>> 6)
    let a1 := asrI8by7 ((a <<< 3) % 256)
    let i2 := (a >>> 1) &&& 0x7
    let i2x := (i2 <<< 5) ||| (i2 <<< 2) ||| (i2 >>> 1)
    let a2 := asrI8by7 ((a <<< 7) % 256)
    [i1, i1, i1, a1, i2x, i2x, i2x, a2])).flatten

def ia8_to_rgba32 (ia8 : List Nat) : List Nat :=
  (ia8.map (fun a =>
    let val := (a &&& 0xF0) ||| (a >>> 4)
    let alpha := ((a <<< 4) % 256) ||| (a &&& 0xF)
    [val, val, val, alpha])).flatten

end Texture

/-! Sprite chunk / frame machinery (asset.rs, `SpriteChunk`, `SpriteFrame`).
Out-of-range slicing in the Rust code panics; here it yields `none`. -/

structure SpriteChunk where
  x : Int
  y : Int
  w : Nat
  h : Nat
  pixel_data : List Nat
deriving DecidableEq

def pxlBits : ImgFmt → Nat
  | .i4 | .ia4 | .ci4 => 4
  | .i8 | .ia8 | .ci8 => 8
  | .rgba16 => 16
  | .rgba32 => 32
  | _ => 0

/-- The cursor alignment `(*file_offset + (8 - 1)) & !(8 - 1)`. -/
def align8 (n : Nat) : Nat := (n + 7) / 8 * 8

def SpriteChunk.new (bin : List Nat) (off : Nat) (fmt : ImgFmt) :
    Option (SpriteChunk × Nat) :=
  let cb := bin.drop off
  if cb.length < 8 then none else
  let x := toI16 (u16dec (cb.getD 0 0) (cb.getD 1 0))
  let y := toI16 (u16dec (cb.getD 2 0) (cb.getD 3 0))
  let w := u16dec (cb.getD 4 0) (cb.getD 5 0)
  let h := u16dec (cb.getD 6 0) (cb.getD 7 0)
  let off1 := align8 (off + 8)
  let data_size := w * h * pxlBits fmt / 8
  if bin.length < off1 + data_size then none else
  some (⟨x, y, w, h, (bin.drop off1).take data_size⟩, off1 + data_size)

/-- Per-chunk pixel decoding: the `match format` on the chunk's `pixel_data`
inside `SpriteFrame::new` (asset.rs lines 933-943). Note that the source maps
`ImgFmt::I8` to `Texture::i4_to_rgba32` and `ImgFmt::IA8` to
`Texture::ia4_to_rgba32`; that is reproduced here verbatim. -/
def chunkDecode (format : ImgFmt) (palette : List Nat) (cd : List Nat) :
    List Nat :=
  match format with
  | .ci4 => Texture.ci4_to_rgba32 cd palette
  | .ci8 => Texture.ci8_to_rgba32 cd palette
  | .i4 => Texture.i4_to_rgba32 cd
  | .i8 => Texture.i4_to_rgba32 cd
  | .rgba16 => Texture.rgba16_to_rgba32 cd
  | .rgba32 => cd
  | .ia4 => Texture.ia4_to_rgba32 cd
  | .ia8 => Texture.ia4_to_rgba32 cd
  | .unknown _ => []

/-- The per-format chunk-reading loops of `SpriteFrame::new`: each iteration
records the 8-byte chunk header slice and then calls `SpriteChunk::new`. -/
def readChunks (bin : List Nat) (fmt : ImgFmt) :
    Nat → Nat → Option (List (List Nat) × List SpriteChunk × Nat)
  | 0, off => some ([], [], off)
  | k + 1, off =>
    if bin.length < off + 8 then none else
    match SpriteChunk.new bin off fmt with
    | none => none
    | some (c, off1) =>
      (readChunks bin fmt k off1).map
        (fun r => (((bin.drop off).take 8) :: r.1, c :: r.2.1, r.2.2))

def setPixel (cv : List (List (List Nat))) (y x : Nat) (p : List Nat) :
    List (List (List Nat)) :=
  cv.set y ((cv.getD y []).set x p)

/-- Blitting one chunk's decoded rows into the frame canvas with clipping,
as in the nested `for` loops of `SpriteFrame::new`. -/
def blitRows (w h : Nat) (x0 y0 : Int) (rows : List (List Nat))
    (cv0 : List (List (List Nat))) : List (List (List Nat)) :=
  rows.enum.foldl (fun cv jr =>
    (chunksExact 4 jr.2).enum.foldl (fun cv2 ip =>
      let fx : Int := x0 + ip.1
      let fy : Int := y0 + jr.1
      if 0 ≤ fx ∧ fx < (w : Int) ∧ 0 ≤ fy ∧ fy < (h : Int) then
        setPixel cv2 fy.toNat fx.toNat ip.2
      else cv2) cv) cv0

structure SpriteFrame where
  w : Nat
  h : Nat
  header : List Nat
  chk_hdrs : List (List Nat)
  palette : Option (List Nat)
  pixel_data : List Nat
deriving DecidableEq

def SpriteFrame.new (bin : List Nat) (file_offset : Nat) (format : ImgFmt) :
    Option SpriteFrame :=
  if bin.length < file_offset + 0x14 then none else
  let header := (bin.drop file_offset).take 0x14
  let frame_bin := bin.drop file_offset
  let w := u16dec (frame_bin.getD 4 0) (frame_bin.getD 5 0)
  let h := u16dec (frame_bin.getD 6 0) (frame_bin.getD 7 0)
  let chunk_cnt := u16dec (frame_bin.getD 8 0) (frame_bin.getD 9 0)
  let off0 := file_offset + 0x14
  let parsed : Option (List Nat × List (List Nat) × List SpriteChunk) :=
    match format with
    | .ci4 =>
      let o := align8 off0
      if bin.length < o + 0x20 then none else
      (readChunks bin format chunk_cnt (o + 0x20)).map
        (fun r => ((bin.drop o).take 0x20, r.1, r.2.1))
    | .ci8 =>
      let o := align8 off0
      if bin.length < o + 0x200 then none else
      (readChunks bin format chunk_cnt (o + 0x200)).map
        (fun r => ((bin.drop o).take 0x200, r.1, r.2.1))
    | .i4 | .i8 | .rgba32 | .rgba16 =>
      (readChunks bin format chunk_cnt off0).map (fun r => ([], r.1, r.2.1))
    | _ => some ([], [], [])
  match parsed with
  | none => none
  | some (palette, hdrs, chunks) =>
    let canvas0 : List (List (List Nat)) :=
      List.replicate h (List.replicate w [0, 0, 0, 0])
    let canvas := chunks.foldl (fun cv chnk =>
      let raw_data := chunkDecode format palette chnk.pixel_data
      let row_data := chunksExact (4 * chnk.w) raw_data
      if chunk_cnt = 1 then blitRows w h 0 0 row_data cv
      else blitRows w h chnk.x chnk.y row_data cv) canvas0
    some { w := w, h := h, header := header, chk_hdrs := hdrs,
           palette := match format with
             | .ci4 | .ci8 => some palette
             | _ => none,
           pixel_data := (canvas.map List.flatten).flatten }

structure Sprite where
  format : ImgFmt
  frame : List SpriteFrame
  bytes : List Nat
deriving DecidableEq

def Sprite.fromBytes (in_bytes : List Nat) : Option Sprite :=
  if in_bytes.length < 4 then none else
  let frame_cnt := u16dec (in_bytes.getD 0 0) (in_bytes.getD 1 0)
  let format := u16dec (in_bytes.getD 2 0) (in_bytes.getD 3 0)
  let frmt : ImgFmt :=
    match format with
    | 0x0001 => .ci4
    | 0x0004 => .ci8
    | 0x0020 => .i4
    | 0x0040 => .i8
    | 0x0400 => .rgba16
    | 0x0800 => .rgba32
    | _ => .unknown format
  match frmt with
  | .unknown _ => some ⟨frmt, [], in_bytes⟩
  | _ =>
    if frame_cnt > 0x100 then
      (SpriteChunk.new in_bytes 8 .rgba16).map (fun p =>
        ⟨frmt,
         [{ w := p.1.w, h := p.1.h, header := [],
            chk_hdrs := [(in_bytes.drop 8).take 8], palette := none,
            pixel_data := Texture.rgba16_to_rgba32 p.1.pixel_data }],
         in_bytes⟩)
    else
      (((chunksExact 4 (in_bytes.drop 0x10)).take frame_cnt).mapM (fun a =>
          SpriteFrame.new in_bytes
            (0x10 + u32dec (a.getD 0 0) (a.getD 1 0) (a.getD 2 0) (a.getD 3 0)
              + 4 * frame_cnt)
            frmt)).map
        (fun frames => ⟨frmt, frames, in_bytes⟩)

/-! The game-text codec (asset.rs, `string_to_vecu8` / `vecu8_to_string`). -/

/-- Overlapping windows of width two, `slice::windows(2)`. -/
def windows2 : List Nat → List (Nat × Nat)
  | a :: b :: t => (a, b) :: windows2 (b :: t)
  | _ => []

/-- The sequential replacement loop of `string_to_vecu8`: for each index `i`
(visited in the order of the given list), set position `i` to `0xFD` and
remove position `i + 1`. -/
def applySquig : List Nat → List Nat → List Nat
  | [], s => s
  | i :: is, s => applySquig is ((s.set i 0xFD).eraseIdx (i + 1))

/-- The `windows(2).enumerate().filter(...).map(...)` pipeline of
`string_to_vecu8`: indices of the `C3 BD` windows, in ascending order. -/
def squigMatches (s : List Nat) : List Nat :=
  ((windows2 s).enum.filter
      (fun p => p.2.1 = 0xC3 ∧ p.2.2 = 0xBD)).map Prod.fst

/-- The `squig_indx` list of `string_to_vecu8`: indices of the `C3 BD`
windows, collected in reverse order. -/
def squig_indx (s : List Nat) : List Nat := (squigMatches s).reverse

/-- `string_to_vecu8`, with the input UTF-8 string represented by its byte
sequence: collect the (reversed) indices of `C3 BD` windows, rewrite each to
the single byte `0xFD`, and append a terminating `0x00`. -/
def string_to_vecu8 (s : List Nat) : List Nat :=
  applySquig (squig_indx s) s ++ [0]

/-- Uppercase hexadecimal digit of a value below 16, as produced by the Rust
format specifier `{:02X}`. -/
def hexDigit (n : Nat) : Char :=
  if n < 10 then Char.ofNat (48 + n) else Char.ofNat (55 + n)

/-- The escape `\xNN` (four characters) emitted by `vecu8_to_string`. -/
def escapeByte (b : Nat) : List Char :=
  ['\\', 'x', hexDigit (b / 16), hexDigit (b % 16)]

/-- `vecu8_to_string`, with the output string represented as its character
list. The loop walks `&bytes[..bytes.len() - 1]`, pushes `*b as char` when
`ch.is_ascii() && *b >= 0x20` and the escape otherwise. -/
def vecu8_to_string (bytes : List Nat) : List Char :=
  (bytes.take (bytes.length - 1)).foldl (fun out b =>
    out ++ (if ¬ b ≤ 0x7F ∨ b < 0x20 then escapeByte b else [Char.ofNat b])) []

/-! Typed asset codecs (asset.rs: `BKString`, `Dialog`, `QuizQuestion`,
`GruntyQuestion`, `ContInput`, `DemoButtonFile`). -/

structure BKString where
  cmd : Nat
  string : List Nat
deriving DecidableEq

/-- One serialized `BKString` record as emitted by the `to_bytes` loops:
`cmd`, then `string.len() as u8`, then the string bytes. -/
def BKString.recBytes (s : BKString) : List Nat :=
  s.cmd :: s.string.length % 256 :: s.string

/-- The record-reading loop shared by `Dialog::from_bytes`,
`QuizQuestion::from_bytes` and `GruntyQuestion::from_bytes`: read `count`
records `(cmd, len, bytes[len])`, returning the records and the remaining
bytes. Out-of-range reads (which panic in Rust) give `none`. -/
def readStrings : Nat → List Nat → Option (List BKString × List Nat)
  | 0, b => some ([], b)
  | k + 1, cmd :: len :: rest =>
    if len ≤ rest.length then
      match readStrings k (rest.drop len) with
      | some (l, r) => some (⟨cmd, rest.take len⟩ :: l, r)
      | none => none
    else none
  | _ + 1, _ => none

structure Dialog where
  bottom : List BKString
  top : List BKString
deriving DecidableEq

def Dialog.fromBytes (in_bytes : List Nat) : Option Dialog :=
  match in_bytes with
  | _ :: _ :: _ :: bottom_size :: rest =>
    (readStrings bottom_size rest).bind (fun bp =>
      match bp.2 with
      | top_size :: r2 =>
        (readStrings top_size r2).map (fun tp => ⟨bp.1, tp.1⟩)
      | [] => none)
  | _ => none

def Dialog.toBytes (d : Dialog) : List Nat :=
  [0x01, 0x03, 0x00]
    ++ d.bottom.length % 256 :: (d.bottom.map BKString.recBytes).flatten
    ++ d.top.length % 256 :: (d.top.map BKString.recBytes).flatten

structure QuizQuestion where
  question : List BKString
  options : List BKString
deriving DecidableEq

def QuizQuestion.fromBytes (in_bytes : List Nat) : Option QuizQuestion :=
  match in_bytes with
  | _ :: _ :: _ :: _ :: _ :: str_cnt :: rest =>
    (readStrings str_cnt rest).bind (fun p =>
      if 3 ≤ p.1.length then
        some ⟨p.1.take (p.1.length - 3), p.1.drop (p.1.length - 3)⟩
      else none)
  | _ => none

def QuizQuestion.toBytes (q : QuizQuestion) : List Nat :=
  [0x01, 0x01, 0x02, 0x05, 0x00]
    ++ (q.question.length + q.options.length) % 256
       :: ((q.question ++ q.options).map BKString.recBytes).flatten

structure GruntyQuestion where
  question : List BKString
  options : List BKString
deriving DecidableEq

def GruntyQuestion.fromBytes (in_bytes : List Nat) : Option GruntyQuestion :=
  match in_bytes with
  | _ :: _ :: _ :: _ :: _ :: str_cnt :: rest =>
    (readStrings str_cnt rest).bind (fun p =>
      if 3 ≤ p.1.length then
        some ⟨p.1.take (p.1.length - 3), p.1.drop (p.1.length - 3)⟩
      else none)
  | _ => none

def GruntyQuestion.toBytes (g : GruntyQuestion) : List Nat :=
  [0x01, 0x03, 0x00, 0x05, 0x00]
    ++ (g.question.length + g.options.length) % 256
       :: ((g.question ++ g.options).map BKString.recBytes).flatten

structure ContInput where
  x : Int
  y : Int
  buttons : Nat
  frames : Nat
deriving DecidableEq

def ContInput.toBytes (i : ContInput) : List Nat :=
  [u8OfI8 i.x, u8OfI8 i.y, i.buttons / 256 % 256, i.buttons % 256, i.frames,
   0x00]

structure DemoButtonFile where
  inputs : List ContInput
  frame1_flag : Nat
deriving DecidableEq

/-- Failure modes of `DemoButtonFile::from_bytes`; the Rust code panics with
an out-of-range index or a failed `assert_eq!`. -/
inductive DemoErr where
  | indexOut (i : Nat)
  | assertFail
deriving DecidableEq

def DemoButtonFile.fromBytes (in_bytes : List Nat) :
    Except DemoErr DemoButtonFile :=
  if in_bytes.length < 4 then .ok ⟨[], 0⟩ else
  let expect_len :=
    u32dec (in_bytes.getD 0 0) (in_bytes.getD 1 0) (in_bytes.getD 2 0)
      (in_bytes.getD 3 0)
  if in_bytes.length ≤ 9 then .error (.indexOut 9) else
  let f1f := in_bytes.getD 9 0
  let inputs := (chunksExact 6 (in_bytes.drop 4)).map (fun a =>
    ContInput.mk (toI8 (a.getD 0 0)) (toI8 (a.getD 1 0))
      (u16dec (a.getD 2 0) (a.getD 3 0)) (a.getD 4 0))
  if expect_len = 6 * inputs.length then .ok ⟨inputs, f1f⟩
  else .error .assertFail

def DemoButtonFile.toBytes (d : DemoButtonFile) : List Nat :=
  if d.inputs = [] then [] else
  u32be (6 * d.inputs.length)
    ++ ((d.inputs.map ContInput.toBytes).flatten).set 5 d.frame1_flag

/-! Well-formedness predicates delimiting the payloads the YAML writers can
emit (spec §8, Property 4: codec inverse holds for every value the writer
can emit): counts and lengths must fit their u8/u32 fields, and numeric
fields must fit their declared Rust integer types. -/

def wfBKStrings (l : List BKString) : Prop := ∀ s ∈ l, s.string.length ≤ 255

def wfDialog (d : Dialog) : Prop :=
  d.bottom.length ≤ 255 ∧ d.top.length ≤ 255 ∧
    wfBKStrings d.bottom ∧ wfBKStrings d.top

def wfQuiz (q : QuizQuestion) : Prop :=
  q.options.length = 3 ∧ q.question.length + 3 ≤ 255 ∧
    wfBKStrings (q.question ++ q.options)

def wfGrunty (g : GruntyQuestion) : Prop :=
  g.options.length = 3 ∧ g.question.length + 3 ≤ 255 ∧
    wfBKStrings (g.question ++ g.options)

def wfContInput (i : ContInput) : Prop :=
  -128 ≤ i.x ∧ i.x < 128 ∧ -128 ≤ i.y ∧ i.y < 128 ∧
    i.buttons < 65536 ∧ i.frames < 256

def wfDemo (d : DemoButtonFile) : Prop :=
  (∀ i ∈ d.inputs, wfContInput i) ∧ d.frame1_flag < 256 ∧
    6 * d.inputs.length < 2 ^ 32

/-! The asset registry. The source uses a trait object `Box<dyn Asset>`;
here it is a tagged variant with the same per-kind `to_bytes`
implementations. `Animation`, `Binary`, `LevelSetup`, `MidiSeqFile`,
`Model` and `Sprite` all serialize their stored raw bytes verbatim. -/

inductive Asset where
  | anim (bytes : List Nat)
  | binary (bytes : List Nat)
  | levelSetup (bytes : List Nat)
  | midi (bytes : List Nat)
  | model (bytes : List Nat)
  | sprite (s : Sprite)
  | dialog (d : Dialog)
  | quiz (q : QuizQuestion)
  | grunty (g : GruntyQuestion)
  | demo (d : DemoButtonFile)
deriving DecidableEq

def Asset.toBytes : Asset → List Nat
  | .anim b => b
  | .binary b => b
  | .levelSetup b => b
  | .midi b => b
  | .model b => b
  | .sprite s => s.bytes
  | .dialog d => d.toBytes
  | .quiz q => q.toBytes
  | .grunty g => g.toBytes
  | .demo d => d.toBytes

/-- `from_seg_indx_and_bytes` (asset.rs lines 7-25): dispatch on the segment
index and the payload's leading bytes. A Rust panic inside a typed parser
becomes `none`. -/
def from_seg_indx_and_bytes (segment _i : Nat) (in_bytes : List Nat) :
    Option Asset :=
  match segment with
  | 0 => some (.anim in_bytes)
  | 1 | 3 =>
    match in_bytes with
    | 0x00 :: 0x00 :: 0x00 :: 0x0B :: _ => some (.model in_bytes)
    | _ => (Sprite.fromBytes in_bytes).map .sprite
  | 2 => some (.levelSetup in_bytes)
  | 4 =>
    match in_bytes with
    | 0x01 :: 0x01 :: 0x02 :: 0x05 :: 0x00 :: _ =>
      (QuizQuestion.fromBytes in_bytes).map .quiz
    | 0x01 :: 0x03 :: 0x00 :: 0x05 :: 0x00 :: _ =>
      (GruntyQuestion.fromBytes in_bytes).map .grunty
    | 0x01 :: 0x03 :: 0x00 :: _ => (Dialog.fromBytes in_bytes).map .dialog
    | _ => (DemoButtonFile.fromBytes in_bytes).toOption.map .demo
  | 5 => some (.model in_bytes)
  | 6 => some (.midi in_bytes)
  | _ => some (.binary in_bytes)

/-! The archive container (mod.rs: `AssetMeta`, `AssetEntry`,
`AssetFolder`). -/

structure AssetMeta where
  offset : Nat
  c_flag : Bool
  t_flag : Nat
deriving DecidableEq

def AssetMeta.fromBytes (in_bytes : List Nat) : AssetMeta :=
  { offset := u32dec (in_bytes.getD 0 0) (in_bytes.getD 1 0)
      (in_bytes.getD 2 0) (in_bytes.getD 3 0)
    c_flag := u16dec (in_bytes.getD 4 0) (in_bytes.getD 5 0) != 0
    t_flag := u16dec (in_bytes.getD 6 0) (in_bytes.getD 7 0) }

def AssetMeta.toBytes (m : AssetMeta) : List Nat :=
  u32be m.offset ++ [0x00, if m.c_flag then 1 else 0] ++ u16be m.t_flag

structure AssetEntry where
  uid : Nat
  seg : Nat
  meta : AssetMeta
  data : Option Asset
deriving DecidableEq

def AssetEntry.new (uid : Nat) : AssetEntry :=
  { uid := uid, seg := 0, meta := ⟨0, false, 4⟩, data := none }

structure AssetFolder where
  assets : List AssetEntry
deriving DecidableEq

/-- The `meta_info.windows(2).enumerate().map(...)` loop of
`AssetFolder::from_bytes`, carrying the mutable `segment` and `prev_t`
state. `i` is the enumeration index, `seg`/`prev` the running counter state.
Rust panics (bad payload slice bounds, typed-parser panics) yield `none`. -/
def walkEntries (unzip : List Nat → List Nat) (dataBytes : List Nat) :
    Nat → Nat → Nat → List AssetMeta → Option (List AssetEntry)
  | i, seg, prev, this :: next :: rest =>
    if this.t_flag = 4 then
      (walkEntries unzip dataBytes (i + 1) seg prev (next :: rest)).map
        (fun tail => { uid := i, seg := 0, meta := this, data := none } :: tail)
    else
      let st :=
        if this.t_flag ≠ 2 ∧ (prev &&& 2) ≠ (this.t_flag &&& 2) then
          (seg + 1, this.t_flag)
        else (seg, prev)
      if this.offset ≤ next.offset ∧ next.offset ≤ dataBytes.length then
        let comp_bin :=
          (dataBytes.drop this.offset).take (next.offset - this.offset)
        let decomp_bin := if this.c_flag then unzip comp_bin else comp_bin
        (from_seg_indx_and_bytes st.1 i decomp_bin).bind (fun a =>
          (walkEntries unzip dataBytes (i + 1) st.1 st.2 (next :: rest)).map
            (fun tail =>
              { uid := i, seg := st.1, meta := this, data := some a } :: tail))
      else none
  | _, _, _, _ => some []

def AssetFolder.fromBytes (unzip : List Nat → List Nat)
    (in_bytes : List Nat) : Option AssetFolder :=
  if in_bytes.length < 8 then none else
  let asset_slot_cnt :=
    u32dec (in_bytes.getD 0 0) (in_bytes.getD 1 0) (in_bytes.getD 2 0)
      (in_bytes.getD 3 0)
  let rest := in_bytes.drop 8
  if rest.length < 8 * asset_slot_cnt then none else
  let table_bytes := rest.take (8 * asset_slot_cnt)
  let data_bytes := rest.drop (8 * asset_slot_cnt)
  let meta_info := (chunksExact 8 table_bytes).map AssetMeta.fromBytes
  (walkEntries unzip data_bytes 0 0 0x3 meta_info).map (fun l => ⟨l⟩)

/-- Per-entry payload bytes as computed by the `comp_bins` map of
`AssetFolder::to_bytes`. -/
def payloadBytes (zip : List Nat → List Nat) (a : AssetEntry) : List Nat :=
  match a.data with
  | none => []
  | some ass => if a.meta.c_flag then zip ass.toBytes else ass.toBytes

/-- The offset-assigning fold of `AssetFolder::to_bytes`: entry `k` gets the
sum of the sizes of the payloads before it. -/
def updateOffsets : List AssetEntry → List Nat → Nat → List AssetEntry
  | a :: rest, s :: ss, o =>
    { a with meta := { a.meta with offset := o } } :: updateOffsets rest ss (o + s)
  | _, _, _ => []

/-- `AssetFolder::to_bytes`. It returns the emitted bytes and the folder as
mutated by the method (sentinel push when the last entry has data, offset
updates, final `pop`). The `last().unwrap()` on an empty folder panics, hence
`none`. -/
def AssetFolder.toBytes (zip : List Nat → List Nat) (f : AssetFolder) :
    Option (List Nat × AssetFolder) :=
  (f.assets.getLast?).map (fun lastE =>
    let assets1 :=
      if lastE.data.isSome then f.assets ++ [AssetEntry.new f.assets.length]
      else f.assets
    let comp_bins := assets1.map (payloadBytes zip)
    let assets2 := updateOffsets assets1 (comp_bins.map List.length) 0
    let out :=
      u32be assets1.length ++ [0xff, 0xff, 0xff, 0xff]
        ++ (assets2.map (fun a => a.meta.toBytes)).flatten
        ++ comp_bins.flatten
    (out, ⟨assets2.dropLast⟩))

/-- The construct driver's trailing padding (main.rs line 45):
`decomp_buffer.resize((decomp_buffer.len() + 15) & !15, 0)`. -/
def pad16 (l : List Nat) : List Nat :=
  l ++ List.replicate ((l.length + 15) / 16 * 16 - l.length) 0

/-! Specification-side definitions used to state the claims. -/

/-- Modelled from the spec: the segment counter of §3 as a standalone state
machine over the `type_flag` stream of the processed slots, parameterised by
the counter's start state `(seg, prev)`. A slot with `type_flag = 4` is
assigned segment `0` and leaves the state unchanged; otherwise the counter
advances by 1 exactly when `type_flag ≠ 2` and
`(prev &&& 2) ≠ (type_flag &&& 2)`, in which case `prev` becomes the slot's
flag. -/
def segSpecAux (seg prev : Nat) : List Nat → List Nat
  | [] => []
  | t :: ts =>
    if t = 4 then 0 :: segSpecAux seg prev ts
    else if t ≠ 2 ∧ (prev &&& 2) ≠ (t &&& 2) then
      (seg + 1) :: segSpecAux (seg + 1) t ts
    else seg :: segSpecAux seg prev ts

/-- The segment assignment exactly as claim C3 words it: counter starts at 0
and the initial `prev_type_flag` is 0. -/
def segAssignClaim (flags : List Nat) : List Nat := segSpecAux 0 0 flags

/-- The segment assignment with the start state of the code: counter starts
at 0 and the initial `prev_type_flag` is 0x3. -/
def segAssignCode (flags : List Nat) : List Nat := segSpecAux 0 0x3 flags

/-- Modelled from the spec: the claimed bytes-to-text rendering of C6 — drop
the final byte, pass bytes in `0x20..=0x7E` through and escape everything
else. -/
def renderClaimC6 (bytes : List Nat) : List Char :=
  (bytes.dropLast).flatMap (fun b =>
    if 0x20 ≤ b ∧ b ≤ 0x7E then [Char.ofNat b] else escapeByte b)

/-- The bytes-to-text rendering the code actually implements: drop the final
byte, pass bytes in `0x20..=0x7F` through and escape everything else. -/
def renderCode (bytes : List Nat) : List Char :=
  (bytes.dropLast).flatMap (fun b =>
    if 0x20 ≤ b ∧ b ≤ 0x7F then [Char.ofNat b] else escapeByte b)

/-- Modelled from the spec: the claimed text-to-bytes transformation of C7 —
each occurrence of the two-byte sequence `C3 BD` collapses to the single byte
`0xFD`, everything else is copied. -/
def collapseSquig : List Nat → List Nat
  | a :: b :: rest =>
    if a = 0xC3 ∧ b = 0xBD then 0xFD :: collapseSquig rest
    else a :: collapseSquig (b :: rest)
  | l => l

/-! Concrete inputs used by individual claims. -/

/-- The 10-byte Dialog payload of claim C5. -/
def dialogSample : List Nat :=
  [0x01, 0x03, 0x00, 0x01, 0x04, 0x02, 0x48, 0x49, 0x00, 0x01]

/-- A 28-byte archive with one non-empty slot of `type_flag = 0` holding the
4-byte Model payload `00 00 00 0B`, plus the sentinel slot. -/
def segArchiveSample : List Nat :=
  [0x00, 0x00, 0x00, 0x02, 0xFF, 0xFF, 0xFF, 0xFF,
   0x00, 0x00, 0x00, 0x00, 0x00, 0x00, 0x00, 0x00,
   0x00, 0x00, 0x00, 0x04, 0x00, 0x00, 0x00, 0x04,
   0x00, 0x00, 0x00, 0x0B]

/-- A 32-byte archive (a 16-byte multiple) whose slot before the sentinel is
an empty slot (`type_flag = 4`). -/
def archiveSample : List Nat :=
  [0x00, 0x00, 0x00, 0x02, 0xFF, 0xFF, 0xFF, 0xFF,
   0x00, 0x00, 0x00, 0x00, 0x00, 0x00, 0x00, 0x04,
   0x00, 0x00, 0x00, 0x00, 0x00, 0x00, 0x00, 0x04,
   0x00, 0x00, 0x00, 0x00, 0x00, 0x00, 0x00, 0x00]

/-! Theorems settling the claims. -/

/-- C4, counterexample: the claimed RGBA5551 expansions are false of the
code. `Texture.rgba16_to_rgba32` maps `0xFFFF` to `[251, 251, 251, 255]`
(the source expands with `(v << 3) | (v >> 3)`, so 31 becomes 251, not 255),
and `0x07C1` is a green value `[0, 251, 0, 255]`, not the claimed blue
`[0, 0, 255, 255]`. -/
theorem rgba5551_expansion_counterexample :
    Texture.rgba16_to_rgba32 [0xFF, 0xFF] ≠ [255, 255, 255, 255] ∧
    Texture.rgba16_to_rgba32 [0x07, 0xC1] ≠ [0, 0, 255, 255] := by
  exact ⟨by decide, by decide⟩

/-- C4, amended: the RGBA5551-to-RGBA8 expansion used by the texture decoder
maps `0x0000` to `[0, 0, 0, 0]`, `0xFFFF` to `[251, 251, 251, 255]` and
`0x07C1` to `[0, 251, 0, 255]`. -/
theorem rgba5551_expansion_amended :
    Texture.rgba16_to_rgba32 [0x00, 0x00] = [0, 0, 0, 0] ∧
    Texture.rgba16_to_rgba32 [0xFF, 0xFF] = [251, 251, 251, 255] ∧
    Texture.rgba16_to_rgba32 [0x07, 0xC1] = [0, 251, 0, 255] := by
  exact ⟨by decide, by decide, by decide⟩

/-- C8: during sprite frame assembly, an I8-format chunk is decoded with
`Texture::i4_to_rgba32` (asset.rs line 937), not with the intended
`Texture::i8_to_rgba32`: the chunk byte `0x12` yields the two nibble-expanded
pixels `[17, 17, 17, 255, 34, 34, 34, 255]` instead of the single pixel
`(0x12, 0x12, 0x12, 0xFF)` that the claim (and `Texture::to_rgba32`, which
does use `i8_to_rgba32` for I8) describes. -/
theorem i8_chunk_decode_bug :
    chunkDecode .i8 [] [0x12] = Texture.i4_to_rgba32 [0x12] ∧
    chunkDecode .i8 [] [0x12] = [17, 17, 17, 255, 34, 34, 34, 255] ∧
    Texture.i8_to_rgba32 [0x12] = [18, 18, 18, 255] ∧
    chunkDecode .i8 [] [0x12] ≠ Texture.i8_to_rgba32 [0x12] := by
  exact ⟨by decide, by decide, by decide, by decide⟩

/-- C5, counterexample: parsing the 10-byte payload
`01 03 00 01 04 02 48 49 00 01` does not give a bottom string
`"HI\x00" = [0x48, 0x49, 0x00]` (the record's length byte is 2, so the
string is `[0x48, 0x49]`), and re-serialisation does not return the original
10 bytes (the trailing `0x01` is never consumed, so only 9 bytes come
back). -/
theorem dialog_scenario_counterexample :
    (Dialog.fromBytes dialogSample).map
        (fun d => d.bottom.map BKString.string) ≠ some [[0x48, 0x49, 0x00]] ∧
    (Dialog.fromBytes dialogSample).map Dialog.toBytes ≠ some dialogSample := by
  exact ⟨by decide, by decide⟩

/-- C5, amended: the payload `01 03 00 01 04 02 48 49 00 01` parses to
exactly one bottom entry with cmd `0x04` and two-byte string
`"HI" = [0x48, 0x49]` and zero top entries, and re-serialising the parsed
Dialog yields the first 9 bytes `01 03 00 01 04 02 48 49 00` (the trailing
`0x01` of the payload is dropped). -/
theorem dialog_scenario_amended :
    Dialog.fromBytes dialogSample =
      some ⟨[⟨0x04, [0x48, 0x49]⟩], []⟩ ∧
    (Dialog.fromBytes dialogSample).map Dialog.toBytes =
      some [0x01, 0x03, 0x00, 0x01, 0x04, 0x02, 0x48, 0x49, 0x00] := by
  exact ⟨by decide, by decide⟩

/-- C6, counterexample: the byte `0x7F` is outside the claimed printable
range `0x20..=0x7E`, so the claim demands the escape `\x7F`; the code
passes it through unchanged (`char::is_ascii` accepts `0x7F`). -/
theorem vecu8_render_counterexample :
    vecu8_to_string [0x7F, 0x00] ≠ renderClaimC6 [0x7F, 0x00] ∧
    vecu8_to_string [0x7F, 0x00] = [Char.ofNat 0x7F] ∧
    renderClaimC6 [0x7F, 0x00] = escapeByte 0x7F := by
  exact ⟨by decide, by decide, by decide⟩

/-- C3, counterexample: on an archive whose first processed slot has
`type_flag = 0`, the parser assigns segment 1 (its `prev_t` starts at `0x3`,
whose bit 1 is set, so the counter advances), while the claimed rule with
initial `prev_type_flag = 0` would leave the counter at 0. -/
theorem segment_counter_counterexample :
    (AssetFolder.fromBytes id segArchiveSample).map
        (fun f => f.assets.map AssetEntry.seg) ≠ some (segAssignClaim [0]) ∧
    (AssetFolder.fromBytes id segArchiveSample).map
        (fun f => f.assets.map AssetEntry.seg) = some (segAssignCode [0]) := by
  exact ⟨by decide, by decide⟩

/-- C1, counterexample: extracting and reconstructing the 32-byte archive
`archiveSample` (whose slot before the sentinel is empty) yields a 16-byte
archive with slot count 1 instead of the original with slot count 2:
`AssetFolder::to_bytes` re-appends a sentinel only when the last entry has a
payload, so the trailing empty slot is lost. The original is already a
16-byte multiple, so padding plays no role. -/
theorem archive_roundtrip_counterexample :
    (AssetFolder.fromBytes id archiveSample).bind
        (fun f => (f.toBytes id).map (fun p => pad16 p.1)) =
      some [0x00, 0x00, 0x00, 0x01, 0xFF, 0xFF, 0xFF, 0xFF,
            0x00, 0x00, 0x00, 0x00, 0x00, 0x00, 0x00, 0x04] ∧
    ([0x00, 0x00, 0x00, 0x01, 0xFF, 0xFF, 0xFF, 0xFF,
      0x00, 0x00, 0x00, 0x00, 0x00, 0x00, 0x00, 0x04] : List Nat) ≠
      archiveSample := by
  exact ⟨by decide, by decide⟩

/-! Helper lemmas for the text-codec claims C6 and C7. -/

theorem applySquig_append (l1 l2 s : List Nat) :
    applySquig (l1 ++ l2) s = applySquig l2 (applySquig l1 s) := by
  induction l1 generalizing s with
  | nil => rfl
  | cons i l ih => simp [applySquig, ih]

theorem applySquig_shift1 (L : List Nat) (a : Nat) (t : List Nat) :
    applySquig (L.map (fun i => i + 1)) (a :: t) = a :: applySquig L t := by
  induction L generalizing t with
  | nil => rfl
  | cons i L ih =>
    simp only [List.map_cons, applySquig, List.set_cons_succ,
      List.eraseIdx_cons_succ]
    exact ih _

theorem applySquig_shift2 (L : List Nat) (a b : Nat) (t : List Nat) :
    applySquig (L.map (fun i => i + 2)) (a :: b :: t) =
      a :: b :: applySquig L t := by
  have h2 : L.map (fun i => i + 2) =
      (L.map (fun i => i + 1)).map (fun i => i + 1) := by
    rw [List.map_map]
    exact List.map_congr_left fun i _ => by simp [Function.comp]
  rw [h2, applySquig_shift1, applySquig_shift1]

theorem filter_fst_enumFrom_one (l : List (Nat × Nat)) :
    ((l.enumFrom 1).filter
        (fun p => p.2.1 = 0xC3 ∧ p.2.2 = 0xBD)).map Prod.fst =
      ((l.enum.filter
          (fun p => p.2.1 = 0xC3 ∧ p.2.2 = 0xBD)).map Prod.fst).map
        (fun i => i + 1) := by
  rw [List.enumFrom_eq_map_enum, List.filter_map]
  rw [List.map_map, List.map_map]
  rw [List.filter_congr (fun a _ =>
    show decide ((Prod.map (· + 1) id a).2.1 = 0xC3 ∧
        (Prod.map (· + 1) id a).2.2 = 0xBD) =
      decide (a.2.1 = 0xC3 ∧ a.2.2 = 0xBD) from by cases a; rfl)]
  exact List.map_congr_left fun a _ => by cases a; rfl

theorem squigMatches_cons (a b : Nat) (t : List Nat) :
    squigMatches (a :: b :: t) =
      (if a = 0xC3 ∧ b = 0xBD then [0] else []) ++
        (squigMatches (b :: t)).map (fun i => i + 1) := by
  unfold squigMatches
  rw [show windows2 (a :: b :: t) = (a, b) :: windows2 (b :: t) from rfl]
  rw [List.enum_cons, List.filter_cons]
  by_cases h : a = 0xC3 ∧ b = 0xBD
  · rw [if_pos (by simpa using h), List.map_cons, if_pos h,
      filter_fst_enumFrom_one]
    rfl
  · rw [if_neg (by simpa using h), if_neg h, List.nil_append,
      filter_fst_enumFrom_one]

theorem squigMatches_cons2 (t : List Nat) :
    squigMatches (0xC3 :: 0xBD :: t) =
      0 :: (squigMatches t).map (fun i => i + 2) := by
  rw [squigMatches_cons]
  rw [if_pos ⟨rfl, rfl⟩]
  cases t with
  | nil => rfl
  | cons c t' =>
    rw [squigMatches_cons]
    rw [if_neg (by simp)]
    simp [List.map_map]

theorem squigMatches_cons_ne (a b : Nat) (t : List Nat)
    (h : ¬(a = 0xC3 ∧ b = 0xBD)) :
    squigMatches (a :: b :: t) =
      (squigMatches (b :: t)).map (fun i => i + 1) := by
  rw [squigMatches_cons, if_neg h, List.nil_append]

theorem applySquig_squig : ∀ s : List Nat,
    applySquig (squig_indx s) s = collapseSquig s
  | [] => rfl
  | [a] => rfl
  | a :: b :: t => by
    by_cases h : a = 0xC3 ∧ b = 0xBD
    · obtain ⟨ha, hb⟩ := h
      subst ha; subst hb
      rw [squig_indx, squigMatches_cons2, List.reverse_cons,
        ← List.map_reverse]
      rw [applySquig_append, applySquig_shift2]
      rw [show ((squigMatches t).reverse : List Nat) = squig_indx t from rfl]
      rw [applySquig_squig t]
      have hc : collapseSquig (0xC3 :: 0xBD :: t) = 0xFD :: collapseSquig t := by
        simp [collapseSquig]
      rw [hc]
      rfl
    · rw [squig_indx, squigMatches_cons_ne a b t h, ← List.map_reverse]
      rw [applySquig_shift1]
      rw [show ((squigMatches (b :: t)).reverse : List Nat) =
        squig_indx (b :: t) from rfl]
      rw [applySquig_squig (b :: t)]
      have hc : collapseSquig (a :: b :: t) = a :: collapseSquig (b :: t) := by
        simp only [collapseSquig]
        rw [if_neg h]
      rw [hc]

/-- C7: for every input string (represented by its UTF-8 byte sequence),
`string_to_vecu8` produces the string's bytes with each occurrence of the
two-byte sequence `C3 BD` collapsed to the single byte `0xFD`, and with a
single `0x00` byte appended at the end. -/
theorem string_to_vecu8_collapse (s : List Nat) :
    string_to_vecu8 s = collapseSquig s ++ [0] := by
  rw [string_to_vecu8, applySquig_squig]

/-- C6, amended: for every non-empty byte buffer, the emitter drops the
final byte of the buffer and, for each remaining byte, passes bytes in
`0x20..=0x7F` through unchanged (not `0x20..=0x7E`: `char::is_ascii` accepts
`0x7F`) and renders every byte outside that range as the escape `\xNN`. -/
theorem vecu8_render_amended (bytes : List Nat) (_h : bytes ≠ []) :
    vecu8_to_string bytes = renderCode bytes := by
  have hfold : ∀ (g : Nat → List Char) (l : List Nat) (acc : List Char),
      l.foldl (fun out b => out ++ g b) acc = acc ++ l.flatMap g := by
    intro g l
    induction l with
    | nil => intro acc; simp
    | cons b l ih => intro acc; simp [ih]
  rw [vecu8_to_string, renderCode, hfold, List.nil_append,
    ← List.dropLast_eq_take]
  have hfun : ∀ b : Nat,
      (if ¬ b ≤ 0x7F ∨ b < 0x20 then escapeByte b else [Char.ofNat b]) =
        (if 0x20 ≤ b ∧ b ≤ 0x7F then [Char.ofNat b] else escapeByte b) := by
    intro b
    by_cases h1 : 0x20 ≤ b ∧ b ≤ 0x7F
    · rw [if_pos h1, if_neg (by omega)]
    · rw [if_pos (by omega), if_neg h1]
  simp only [hfun]

theorem vecu8_render_amended_witness :
    vecu8_to_string [0x48, 0x1F, 0x7F, 0x80, 0x00] =
      renderCode [0x48, 0x1F, 0x7F, 0x80, 0x00] :=
  vecu8_render_amended [0x48, 0x1F, 0x7F, 0x80, 0x00] (by decide)

/-! Helper lemmas for the codec-inverse claim C2. -/

theorem u32dec_u32be (n : Nat) (h : n < 2 ^ 32) :
    u32dec (n / 2 ^ 24 % 256) (n / 2 ^ 16 % 256) (n / 256 % 256) (n % 256) =
      n := by
  unfold u32dec
  omega

theorem toI8_u8OfI8 (x : Int) (h1 : -128 ≤ x) (h2 : x < 128) :
    toI8 (u8OfI8 x) = x := by
  unfold toI8 u8OfI8
  split <;> omega

theorem readStrings_round (l : List BKString) (r : List Nat)
    (h : ∀ s ∈ l, s.string.length ≤ 255) :
    readStrings l.length ((l.map BKString.recBytes).flatten ++ r) =
      some (l, r) := by
  induction l with
  | nil => rfl
  | cons s l ih =>
    have hs : s.string.length % 256 = s.string.length :=
      Nat.mod_eq_of_lt (by have := h s (by simp); omega)
    simp only [List.map_cons, List.flatten_cons, List.length_cons,
      BKString.recBytes, List.cons_append, List.append_assoc]
    simp only [readStrings, hs]
    rw [if_pos (by simp)]
    rw [show (s.string ++ ((l.map BKString.recBytes).flatten ++ r)).take
        s.string.length = s.string from List.take_left s.string _]
    rw [show (s.string ++ ((l.map BKString.recBytes).flatten ++ r)).drop
        s.string.length = (l.map BKString.recBytes).flatten ++ r from
      List.drop_left s.string _]
    rw [ih (fun t ht => h t (by simp [ht]))]

theorem dialog_round (d : Dialog) (h : wfDialog d) :
    Dialog.fromBytes d.toBytes = some d := by
  obtain ⟨bottom, top⟩ := d
  obtain ⟨h1, h2, h3, h4⟩ := h
  replace h2 : top.length ≤ 255 := h2
  have hb : bottom.length % 256 = bottom.length :=
    Nat.mod_eq_of_lt (by exact Nat.lt_succ_of_le h1)
  have ht : top.length % 256 = top.length :=
    Nat.mod_eq_of_lt (by omega)
  replace h1 : bottom.length ≤ 255 := h1
  replace h3 : wfBKStrings bottom := h3
  replace h4 : wfBKStrings top := h4
  show Dialog.fromBytes (0x01 :: 0x03 :: 0x00 :: (bottom.length % 256) ::
    ((bottom.map BKString.recBytes).flatten ++ (top.length % 256) ::
      (top.map BKString.recBytes).flatten)) = _
  simp only [Dialog.fromBytes, hb]
  rw [readStrings_round bottom ((top.length % 256) ::
    (top.map BKString.recBytes).flatten) h3]
  show (readStrings (top.length % 256)
      ((top.map BKString.recBytes).flatten)).map
    (fun tp => Dialog.mk bottom tp.1) = some (Dialog.mk bottom top)
  rw [ht]
  have h5 := readStrings_round top [] h4
  rw [List.append_nil] at h5
  rw [h5]
  rfl

theorem quiz_round (q : QuizQuestion) (h : wfQuiz q) :
    QuizQuestion.fromBytes q.toBytes = some q := by
  obtain ⟨question, options⟩ := q
  obtain ⟨h1, h2, h3⟩ := h
  replace h1 : options.length = 3 := h1
  replace h2 : question.length + 3 ≤ 255 := h2
  replace h3 : wfBKStrings (question ++ options) := h3
  have hc : (question.length + options.length) % 256 =
      (question ++ options).length := by
    rw [List.length_append]
    exact Nat.mod_eq_of_lt (by omega)
  show QuizQuestion.fromBytes (0x01 :: 0x01 :: 0x02 :: 0x05 :: 0x00 ::
    ((question.length + options.length) % 256) ::
    ((question ++ options).map BKString.recBytes).flatten) = _
  simp only [QuizQuestion.fromBytes, hc]
  have h5 := readStrings_round (question ++ options) [] h3
  rw [List.append_nil] at h5
  rw [h5]
  show (if 3 ≤ (question ++ options).length then
      some (QuizQuestion.mk ((question ++ options).take
        ((question ++ options).length - 3))
        ((question ++ options).drop ((question ++ options).length - 3)))
    else none) = _
  rw [if_pos (by simp [h1])]
  have hq : (question ++ options).length - 3 = question.length := by
    simp [h1]
  rw [hq, List.take_left question options, List.drop_left question options]

theorem grunty_round (g : GruntyQuestion) (h : wfGrunty g) :
    GruntyQuestion.fromBytes g.toBytes = some g := by
  obtain ⟨question, options⟩ := g
  obtain ⟨h1, h2, h3⟩ := h
  replace h1 : options.length = 3 := h1
  replace h2 : question.length + 3 ≤ 255 := h2
  replace h3 : wfBKStrings (question ++ options) := h3
  have hc : (question.length + options.length) % 256 =
      (question ++ options).length := by
    rw [List.length_append]
    exact Nat.mod_eq_of_lt (by omega)
  show GruntyQuestion.fromBytes (0x01 :: 0x03 :: 0x00 :: 0x05 :: 0x00 ::
    ((question.length + options.length) % 256) ::
    ((question ++ options).map BKString.recBytes).flatten) = _
  simp only [GruntyQuestion.fromBytes, hc]
  have h5 := readStrings_round (question ++ options) [] h3
  rw [List.append_nil] at h5
  rw [h5]
  show (if 3 ≤ (question ++ options).length then
      some (GruntyQuestion.mk ((question ++ options).take
        ((question ++ options).length - 3))
        ((question ++ options).drop ((question ++ options).length - 3)))
    else none) = _
  rw [if_pos (by simp [h1])]
  have hq : (question ++ options).length - 3 = question.length := by
    simp [h1]
  rw [hq, List.take_left question options, List.drop_left question options]

theorem contInput_parse_round (i : ContInput) (h : wfContInput i) :
    ContInput.mk (toI8 (i.toBytes.getD 0 0)) (toI8 (i.toBytes.getD 1 0))
      (u16dec (i.toBytes.getD 2 0) (i.toBytes.getD 3 0))
      (i.toBytes.getD 4 0) = i := by
  obtain ⟨x, y, bt, fr⟩ := i
  obtain ⟨h1, h2, h3, h4, h5, h6⟩ := h
  replace h1 : -128 ≤ x := h1
  replace h2 : x < 128 := h2
  replace h3 : -128 ≤ y := h3
  replace h4 : y < 128 := h4
  replace h5 : bt < 65536 := h5
  simp only [ContInput.toBytes, List.getD_cons_zero, List.getD_cons_succ]
  rw [toI8_u8OfI8 x h1 h2, toI8_u8OfI8 y h3 h4]
  have hbt : u16dec (bt / 256 % 256) (bt % 256) = bt := by
    unfold u16dec
    omega
  rw [hbt]

theorem demo_round (d : DemoButtonFile) (h : wfDemo d) :
    (DemoButtonFile.fromBytes d.toBytes).map DemoButtonFile.toBytes =
      Except.ok d.toBytes := by
  obtain ⟨inputs, flag⟩ := d
  obtain ⟨hi, hf, hlen⟩ := h
  replace hi : ∀ i ∈ inputs, wfContInput i := hi
  replace hf : flag < 256 := hf
  replace hlen : 6 * inputs.length < 2 ^ 32 := hlen
  cases inputs with
  | nil => rfl
  | cons i0 rest =>
    obtain ⟨x, y, bt, fr⟩ := i0
    have hw0 : wfContInput ⟨x, y, bt, fr⟩ := hi _ (by simp)
    obtain ⟨h1, h2, h3, h4, h5, h6⟩ := hw0
    replace h1 : -128 ≤ x := h1
    replace h2 : x < 128 := h2
    replace h3 : -128 ≤ y := h3
    replace h4 : y < 128 := h4
    replace h5 : bt < 65536 := h5
    replace hlen : 6 * (rest.length + 1) < 2 ^ 32 := by
      simpa using hlen
    set F : List Nat := (rest.map ContInput.toBytes).flatten with hF
    have hFlen : ∀ e ∈ rest.map ContInput.toBytes, e.length = 6 := by
      intro e he
      obtain ⟨i, _, rfl⟩ := List.mem_map.mp he
      rfl
    set N : Nat := 6 * (rest.length + 1) with hN
    have hNlt : N < 2 ^ 32 := hlen
    have htob : DemoButtonFile.toBytes ⟨ContInput.mk x y bt fr :: rest, flag⟩ =
        (N / 2 ^ 24 % 256) :: (N / 2 ^ 16 % 256) :: (N / 256 % 256) ::
        (N % 256) :: u8OfI8 x :: u8OfI8 y :: (bt / 256 % 256) ::
        (bt % 256) :: fr :: flag :: F := by
      show u32be (6 * (ContInput.mk x y bt fr :: rest).length) ++
        ((((ContInput.mk x y bt fr :: rest).map
          ContInput.toBytes).flatten).set 5 flag) = _
      rw [show ((ContInput.mk x y bt fr :: rest).map
          ContInput.toBytes).flatten =
        u8OfI8 x :: u8OfI8 y :: (bt / 256 % 256) :: (bt % 256) :: fr ::
          0x00 :: F from rfl]
      rw [show (u8OfI8 x :: u8OfI8 y :: (bt / 256 % 256) :: (bt % 256) ::
          fr :: 0x00 :: F).set 5 flag =
        u8OfI8 x :: u8OfI8 y :: (bt / 256 % 256) :: (bt % 256) :: fr ::
          flag :: F from rfl]
      rw [show 6 * (ContInput.mk x y bt fr :: rest).length = N from by
        rw [List.length_cons]]
      rfl
    rw [htob]
    rw [DemoButtonFile.fromBytes]
    rw [if_neg (by simp)]
    rw [if_neg (by simp)]
    simp only [List.getD_cons_zero, List.getD_cons_succ]
    have hexp : u32dec (N / 2 ^ 24 % 256) (N / 2 ^ 16 % 256) (N / 256 % 256)
        (N % 256) = N := u32dec_u32be N hNlt
    rw [hexp]
    have hdrop : ((N / 2 ^ 24 % 256) :: (N / 2 ^ 16 % 256) ::
        (N / 256 % 256) :: (N % 256) :: u8OfI8 x :: u8OfI8 y ::
        (bt / 256 % 256) :: (bt % 256) :: fr :: flag :: F).drop 4 =
        [u8OfI8 x, u8OfI8 y, bt / 256 % 256, bt % 256, fr, flag] ++ F := rfl
    rw [hdrop]
    rw [chunksExact_cons 6
      [u8OfI8 x, u8OfI8 y, bt / 256 % 256, bt % 256, fr, flag] F
      (by rfl) (by omega)]
    rw [show chunksExact 6 F = rest.map ContInput.toBytes from
      chunksExact_flatten 6 _ (by omega) hFlen]
    simp only [List.map_cons]
    have hp0 : ContInput.mk
        (toI8 (([u8OfI8 x, u8OfI8 y, bt / 256 % 256, bt % 256, fr,
          flag] : List Nat).getD 0 0))
        (toI8 (([u8OfI8 x, u8OfI8 y, bt / 256 % 256, bt % 256, fr,
          flag] : List Nat).getD 1 0))
        (u16dec (([u8OfI8 x, u8OfI8 y, bt / 256 % 256, bt % 256, fr,
          flag] : List Nat).getD 2 0)
          (([u8OfI8 x, u8OfI8 y, bt / 256 % 256, bt % 256, fr,
            flag] : List Nat).getD 3 0))
        (([u8OfI8 x, u8OfI8 y, bt / 256 % 256, bt % 256, fr,
          flag] : List Nat).getD 4 0) = ContInput.mk x y bt fr := by
      simp only [List.getD_cons_zero, List.getD_cons_succ]
      rw [toI8_u8OfI8 x h1 h2, toI8_u8OfI8 y h3 h4]
      have hbt : u16dec (bt / 256 % 256) (bt % 256) = bt := by
        unfold u16dec
        omega
      rw [hbt]
    rw [hp0]
    rw [List.map_map]
    rw [List.map_congr_left (g := id) (fun i hi2 => by
      have hpr := contInput_parse_round i (hi i (by simp [hi2]))
      simpa [Function.comp] using hpr)]
    rw [List.map_id]
    rw [if_pos (by rw [List.length_cons])]
    show Except.ok (DemoButtonFile.toBytes
      ⟨ContInput.mk x y bt fr :: rest, flag⟩) = _
    rw [htob]

/-- C2: for each of the four typed codecs Dialog, QuizQuestion,
GruntyQuestion and DemoInput, and for every well-formed binary payload of
that type — one that the corresponding YAML writer emits from a well-formed
value (counts and lengths fitting their u8/u32 fields) — serializing the
parsed value (`to_bytes` after `from_bytes`) returns exactly the original
payload bytes. -/
theorem codec_inverse :
    (∀ d : Dialog, wfDialog d →
      (Dialog.fromBytes d.toBytes).map Dialog.toBytes = some d.toBytes) ∧
    (∀ q : QuizQuestion, wfQuiz q →
      (QuizQuestion.fromBytes q.toBytes).map QuizQuestion.toBytes =
        some q.toBytes) ∧
    (∀ g : GruntyQuestion, wfGrunty g →
      (GruntyQuestion.fromBytes g.toBytes).map GruntyQuestion.toBytes =
        some g.toBytes) ∧
    (∀ d : DemoButtonFile, wfDemo d →
      (DemoButtonFile.fromBytes d.toBytes).map DemoButtonFile.toBytes =
        Except.ok d.toBytes) := by
  refine ⟨fun d hd => ?_, fun q hq => ?_, fun g hg => ?_, demo_round⟩
  · rw [dialog_round d hd]
    rfl
  · rw [quiz_round q hq]
    rfl
  · rw [grunty_round g hg]
    rfl

theorem codec_inverse_witness :
    (Dialog.fromBytes (Dialog.toBytes ⟨[⟨4, [0x48, 0x49]⟩], []⟩)).map
        Dialog.toBytes = some (Dialog.toBytes ⟨[⟨4, [0x48, 0x49]⟩], []⟩) ∧
    (QuizQuestion.fromBytes (QuizQuestion.toBytes
        ⟨[⟨1, [0x41]⟩], [⟨2, [0x42]⟩, ⟨2, [0x43]⟩, ⟨2, [0x44]⟩]⟩)).map
        QuizQuestion.toBytes = some (QuizQuestion.toBytes
        ⟨[⟨1, [0x41]⟩], [⟨2, [0x42]⟩, ⟨2, [0x43]⟩, ⟨2, [0x44]⟩]⟩) ∧
    (GruntyQuestion.fromBytes (GruntyQuestion.toBytes
        ⟨[], [⟨2, [0x42]⟩, ⟨2, [0x43]⟩, ⟨2, [0x44]⟩]⟩)).map
        GruntyQuestion.toBytes = some (GruntyQuestion.toBytes
        ⟨[], [⟨2, [0x42]⟩, ⟨2, [0x43]⟩, ⟨2, [0x44]⟩]⟩) ∧
    (DemoButtonFile.fromBytes (DemoButtonFile.toBytes
        ⟨[⟨1, -2, 0x1234, 5⟩], 0xA5⟩)).map DemoButtonFile.toBytes =
      Except.ok (DemoButtonFile.toBytes ⟨[⟨1, -2, 0x1234, 5⟩], 0xA5⟩) :=
  ⟨codec_inverse.1 _ (by unfold wfDialog wfBKStrings; decide),
   codec_inverse.2.1 _ (by unfold wfQuiz wfBKStrings; decide),
   codec_inverse.2.2.1 _ (by unfold wfGrunty wfBKStrings; decide),
   codec_inverse.2.2.2 _ (by unfold wfDemo wfContInput; decide)⟩

/-- C9: for every input byte slice whose length is at least 4 and at most 9,
`DemoButtonFile::from_bytes` fails with an out-of-range index when reading
the frame-flag byte at index 9 (before the length assert even runs, so a
consistent 4-byte prefix does not help); only inputs shorter than 4 bytes
take the empty-structure path, and every successfully parsed input of
length at least 10 has a non-empty input list. -/
theorem demo_frombytes_short_input :
    (∀ b : List Nat, 4 ≤ b.length → b.length ≤ 9 →
      DemoButtonFile.fromBytes b = .error (.indexOut 9)) ∧
    (∀ b : List Nat, b.length < 4 →
      DemoButtonFile.fromBytes b = .ok ⟨[], 0⟩) ∧
    (∀ (b : List Nat) (d : DemoButtonFile), 10 ≤ b.length →
      DemoButtonFile.fromBytes b = .ok d → d.inputs ≠ []) := by
  refine ⟨fun b hb1 hb2 => ?_, fun b hb => ?_, fun b d hb hok => ?_⟩
  · rw [DemoButtonFile.fromBytes, if_neg (by omega), if_pos (by omega)]
  · rw [DemoButtonFile.fromBytes, if_pos hb]
  · rw [DemoButtonFile.fromBytes, if_neg (by omega), if_neg (by omega)] at hok
    dsimp only at hok
    split at hok
    · have hd : d = ⟨(chunksExact 6 (b.drop 4)).map (fun a =>
          ContInput.mk (toI8 (a.getD 0 0)) (toI8 (a.getD 1 0))
            (u16dec (a.getD 2 0) (a.getD 3 0)) (a.getD 4 0)),
          b.getD 9 0⟩ := by
        cases hok
        rfl
      rw [hd]
      simp only [ne_eq, List.map_eq_nil_iff]
      exact chunksExact_ne_nil 6 (b.drop 4) (by omega)
        (by simp [List.length_drop]; omega)
    · exact absurd hok (by simp)

theorem demo_frombytes_short_input_witness :
    DemoButtonFile.fromBytes [0x00, 0x00, 0x00, 0x00] =
      .error (.indexOut 9) ∧
    DemoButtonFile.fromBytes [0x01, 0x02] = .ok ⟨[], 0⟩ ∧
    (DemoButtonFile.mk [⟨1, 2, 3, 4⟩, ⟨5, 6, 7, 8⟩] 0).inputs ≠ [] :=
  ⟨demo_frombytes_short_input.1 [0x00, 0x00, 0x00, 0x00] (by decide)
      (by decide),
   demo_frombytes_short_input.2.1 [0x01, 0x02] (by decide),
   demo_frombytes_short_input.2.2
     [0x00, 0x00, 0x00, 0x0C, 0x01, 0x02, 0x00, 0x03, 0x04, 0x00,
      0x05, 0x06, 0x00, 0x07, 0x08, 0x00]
     (DemoButtonFile.mk [⟨1, 2, 3, 4⟩, ⟨5, 6, 7, 8⟩] 0) (by decide) (by rfl)⟩

/-! Helper lemmas for the archive-container claims C1, C3 and C10. -/

theorem metaToBytes_length (m : AssetMeta) : m.toBytes.length = 8 := rfl

theorem length_updateOffsets :
    ∀ (l : List AssetEntry) (s : List Nat) (o : Nat),
      s.length = l.length → (updateOffsets l s o).length = l.length := by
  intro l
  induction l with
  | nil => intro s o _; cases s <;> rfl
  | cons a l ih =>
    intro s o h
    cases s with
    | nil => simp at h
    | cons s1 ss =>
      simp only [updateOffsets, List.length_cons]
      rw [ih ss _ (by simpa using h)]

theorem updateOffsets_map {α : Type} (f : AssetEntry → α)
    (hf : ∀ (e : AssetEntry) (o : Nat),
      f { e with meta := { e.meta with offset := o } } = f e) :
    ∀ (l : List AssetEntry) (s : List Nat) (o : Nat), s.length = l.length →
      (updateOffsets l s o).map f = l.map f := by
  intro l
  induction l with
  | nil => intro s o _; cases s <;> rfl
  | cons a l ih =>
    intro s o h
    cases s with
    | nil => simp at h
    | cons s1 ss =>
      simp only [updateOffsets, List.map_cons]
      rw [ih ss _ (by simpa using h), hf]

theorem flatten_length_const (k : Nat) :
    ∀ L : List (List Nat), (∀ e ∈ L, e.length = k) →
      L.flatten.length = k * L.length := by
  intro L
  induction L with
  | nil => intro _; simp
  | cons e L ih =>
    intro h
    simp only [List.flatten_cons, List.length_append, List.length_cons]
    rw [h e (by simp), ih (fun x hx => h x (by simp [hx]))]
    ring

theorem take_append_of_length (l1 l2 : List Nat) (n : Nat)
    (h : l1.length = n) : (l1 ++ l2).take n = l1 := by
  subst h
  exact List.take_left l1 l2

theorem drop_append_of_length (l1 l2 : List Nat) (n : Nat)
    (h : l1.length = n) : (l1 ++ l2).drop n = l2 := by
  subst h
  exact List.drop_left l1 l2

/-- C10: when the folder's last entry has no payload, `AssetFolder::to_bytes`
does not append a sentinel but still pops, so the returned (mutated) folder
has lost its last real entry, while the emitted bytes still count that entry
in the slot count and contain its 8-byte slot record (the full slot table
has one record per original entry). -/
theorem tobytes_deletes_last_entry (zip : List Nat → List Nat)
    (f : AssetFolder) (lastE : AssetEntry)
    (hlast : f.assets.getLast? = some lastE) (hdata : lastE.data = none) :
    ∃ out fol, AssetFolder.toBytes zip f = some (out, fol) ∧
      fol.assets.length = f.assets.length - 1 ∧
      fol.assets.map AssetEntry.uid = f.assets.dropLast.map AssetEntry.uid ∧
      out.take 4 = u32be f.assets.length ∧
      (out.drop 8).take (8 * f.assets.length) =
        ((updateOffsets f.assets
          ((f.assets.map (payloadBytes zip)).map List.length) 0).map
          (fun a => a.meta.toBytes)).flatten := by
  have hns : lastE.data.isSome = false := by rw [hdata]; rfl
  rw [AssetFolder.toBytes, hlast, Option.map_some']
  dsimp only
  rw [hns]
  rw [if_neg (by simp)]
  have hSZ : ((f.assets.map (payloadBytes zip)).map List.length).length =
      f.assets.length := by simp
  refine ⟨_, _, rfl, ?_, ?_, ?_, ?_⟩
  · dsimp only
    rw [List.length_dropLast, length_updateOffsets _ _ _ hSZ]
  · dsimp only
    rw [List.map_dropLast, List.map_dropLast,
      updateOffsets_map AssetEntry.uid (fun e o => rfl) _ _ _ hSZ]
  · rw [List.append_assoc, List.append_assoc]
    exact take_append_of_length (u32be f.assets.length) _ 4 rfl
  · rw [List.append_assoc]
    rw [drop_append_of_length
      (u32be f.assets.length ++ [0xff, 0xff, 0xff, 0xff]) _ 8 (by simp [u32be])]
    refine take_append_of_length _ _ _ ?_
    rw [flatten_length_const 8 _ (fun e he => by
      obtain ⟨a, _, rfl⟩ := List.mem_map.mp he
      rfl)]
    rw [List.length_map, length_updateOffsets _ _ _ hSZ]

theorem tobytes_deletes_last_entry_witness :
    ∃ out fol, AssetFolder.toBytes id
        ⟨[⟨0, 0, ⟨0, false, 2⟩, some (.anim [7])⟩,
          ⟨1, 0, ⟨0, false, 4⟩, none⟩]⟩ = some (out, fol) ∧
      fol.assets.length = 1 ∧
      fol.assets.map AssetEntry.uid = [0] ∧
      out.take 4 = u32be 2 ∧
      (out.drop 8).take 16 =
        ((updateOffsets
          [⟨0, 0, ⟨0, false, 2⟩, some (.anim [7])⟩,
           ⟨1, 0, ⟨0, false, 4⟩, none⟩]
          (([(⟨0, 0, ⟨0, false, 2⟩, some (.anim [7])⟩ : AssetEntry),
             ⟨1, 0, ⟨0, false, 4⟩, none⟩].map (payloadBytes id)).map
            List.length) 0).map (fun a => a.meta.toBytes)).flatten :=
  tobytes_deletes_last_entry id
    ⟨[⟨0, 0, ⟨0, false, 2⟩, some (.anim [7])⟩,
      ⟨1, 0, ⟨0, false, 4⟩, none⟩]⟩
    ⟨1, 0, ⟨0, false, 4⟩, none⟩ rfl rfl

theorem walkEntries_segs (unzip : List Nat → List Nat) (dataBytes : List Nat) :
    ∀ (metas : List AssetMeta) (i seg prev : Nat) (es : List AssetEntry),
      walkEntries unzip dataBytes i seg prev metas = some es →
      es.map AssetEntry.seg =
        segSpecAux seg prev (metas.dropLast.map AssetMeta.t_flag)
  | [], _, _, _, es, h => by
    cases h
    rfl
  | [m], _, _, _, es, h => by
    cases h
    rfl
  | this :: next :: rest, i, seg, prev, es, h => by
    rw [walkEntries] at h
    rw [show (this :: next :: rest).dropLast = this :: (next :: rest).dropLast
      from rfl]
    rw [List.map_cons]
    by_cases h4 : this.t_flag = 4
    · rw [if_pos h4] at h
      obtain ⟨tail, htail, hes⟩ := Option.map_eq_some'.mp h
      subst hes
      rw [List.map_cons]
      rw [walkEntries_segs unzip dataBytes (next :: rest) (i + 1) seg prev
        tail htail]
      rw [segSpecAux, if_pos h4]
    · rw [if_neg h4] at h
      by_cases hb : this.offset ≤ next.offset ∧
          next.offset ≤ dataBytes.length
      · rw [if_pos hb] at h
        dsimp only at h
        obtain ⟨a, _, h2⟩ := Option.bind_eq_some.mp h
        obtain ⟨tail, htail, hes⟩ := Option.map_eq_some'.mp h2
        subst hes
        rw [List.map_cons]
        rw [segSpecAux, if_neg h4]
        by_cases hc : this.t_flag ≠ 2 ∧ (prev &&& 2) ≠ (this.t_flag &&& 2)
        · simp only [if_pos hc] at htail ⊢
          rw [walkEntries_segs unzip dataBytes (next :: rest) (i + 1)
            (seg + 1) this.t_flag tail htail]
        · simp only [if_neg hc] at htail ⊢
          rw [walkEntries_segs unzip dataBytes (next :: rest) (i + 1)
            seg prev tail htail]
      · rw [if_neg hb] at h
        exact absurd h (by simp)

/-- C3, amended: during archive parsing, the segment index assigned to every
non-empty slot is computed by a counter that starts at 0 with initial
`prev_type_flag = 0x3` (not 0: the parser initialises `prev_t` to `0x3`,
whose bit 1 is set), and advances by 1 exactly when the slot's
`type_flag ≠ 2` and `(prev_type_flag &&& 2) ≠ (type_flag &&& 2)`, with
`prev_type_flag` updated to the slot's flag when the counter advances. -/
theorem segment_counter_amended (unzip : List Nat → List Nat)
    (in_bytes : List Nat) (f : AssetFolder)
    (h : AssetFolder.fromBytes unzip in_bytes = some f) :
    f.assets.map AssetEntry.seg =
      segAssignCode
        ((((chunksExact 8 ((in_bytes.drop 8).take
            (8 * u32dec (in_bytes.getD 0 0) (in_bytes.getD 1 0)
              (in_bytes.getD 2 0) (in_bytes.getD 3 0)))).map
          AssetMeta.fromBytes).dropLast).map AssetMeta.t_flag) := by
  rw [AssetFolder.fromBytes] at h
  by_cases h8 : in_bytes.length < 8
  · rw [if_pos h8] at h
    exact absurd h (by simp)
  rw [if_neg h8] at h
  dsimp only at h
  by_cases hT : (in_bytes.drop 8).length <
      8 * u32dec (in_bytes.getD 0 0) (in_bytes.getD 1 0) (in_bytes.getD 2 0)
        (in_bytes.getD 3 0)
  · rw [if_pos hT] at h
    exact absurd h (by simp)
  rw [if_neg hT] at h
  obtain ⟨l, hl, hfl⟩ := Option.map_eq_some'.mp h
  subst hfl
  exact walkEntries_segs unzip _ _ 0 0 0x3 l hl

theorem segment_counter_amended_witness :
    ([1] : List Nat) = segAssignCode [0] :=
  segment_counter_amended id segArchiveSample
    ⟨[⟨0, 1, ⟨0, false, 0⟩, some (.model [0x00, 0x00, 0x00, 0x0B])⟩]⟩
    (by rfl)

theorem from_seg_irrel (s i j : Nat) (b : List Nat) :
    from_seg_indx_and_bytes s i b = from_seg_indx_and_bytes s j b := by
  unfold from_seg_indx_and_bytes
  rfl

theorem metaRound (m : AssetMeta) (ho : m.offset < 2 ^ 32)
    (ht : m.t_flag < 65536) : AssetMeta.fromBytes m.toBytes = m := by
  obtain ⟨o, c, t⟩ := m
  replace ho : o < 2 ^ 32 := ho
  replace ht : t < 65536 := ht
  simp only [AssetMeta.toBytes, AssetMeta.fromBytes, u32be, u16be,
    List.cons_append, List.nil_append, List.getD_cons_zero,
    List.getD_cons_succ, AssetMeta.mk.injEq]
  refine ⟨by unfold u32dec; omega, ?_, by unfold u16dec; omega⟩
  cases c <;> simp [u16dec]

theorem updateOffsets_append :
    ∀ (l1 l2 : List AssetEntry) (s1 s2 : List Nat) (o : Nat),
      s1.length = l1.length →
      updateOffsets (l1 ++ l2) (s1 ++ s2) o =
        updateOffsets l1 s1 o ++ updateOffsets l2 s2 (o + s1.sum) := by
  intro l1
  induction l1 with
  | nil =>
    intro l2 s1 s2 o h
    have hs : s1 = [] := List.length_eq_zero.mp (by simpa using h)
    subst hs
    simp [updateOffsets]
  | cons a l ih =>
    intro l2 s1 s2 o h
    cases s1 with
    | nil => simp at h
    | cons x xs =>
      simp only [List.cons_append, updateOffsets, List.sum_cons,
        List.append_eq]
      rw [ih l2 xs s2 (o + x) (by simpa using h), Nat.add_assoc]

theorem updateOffsets_mem :
    ∀ (l : List AssetEntry) (s : List Nat) (o : Nat) (a : AssetEntry),
      a ∈ updateOffsets l s o →
      ∃ e ∈ l, a.data = e.data ∧ a.meta.c_flag = e.meta.c_flag ∧
        a.meta.t_flag = e.meta.t_flag ∧ o ≤ a.meta.offset ∧
        a.meta.offset ≤ o + s.sum := by
  intro l
  induction l with
  | nil => intro s o a ha; cases s <;> simp [updateOffsets] at ha
  | cons e l ih =>
    intro s o a ha
    cases s with
    | nil => simp [updateOffsets] at ha
    | cons x xs =>
      simp only [updateOffsets, List.mem_cons] at ha
      cases ha with
      | inl h =>
        subst h
        exact ⟨e, by simp, rfl, rfl, rfl, by simp, by simp⟩
      | inr h =>
        obtain ⟨e2, he2, h1, h2, h3, h4, h5⟩ := ih xs (o + x) a h
        exact ⟨e2, by simp [he2], h1, h2, h3, by omega,
          by simp [List.sum_cons]; omega⟩

theorem updateOffsets_map_metaBytes :
    ∀ (l1 l2 : List AssetEntry) (s : List Nat) (o : Nat),
      l1.map (fun e => (e.meta.c_flag, e.meta.t_flag)) =
        l2.map (fun e => (e.meta.c_flag, e.meta.t_flag)) →
      (updateOffsets l1 s o).map (fun a => a.meta.toBytes) =
        (updateOffsets l2 s o).map (fun a => a.meta.toBytes) := by
  intro l1
  induction l1 with
  | nil =>
    intro l2 s o h
    have : l2 = [] := by
      cases l2 with
      | nil => rfl
      | cons b l2 => simp at h
    subst this
    rfl
  | cons a l ih =>
    intro l2 s o h
    cases l2 with
    | nil => simp at h
    | cons b l2 =>
      simp only [List.map_cons, List.cons.injEq, Prod.mk.injEq] at h
      obtain ⟨⟨hc, ht⟩, htail⟩ := h
      cases s with
      | nil => rfl
      | cons x xs =>
        simp only [updateOffsets, List.map_cons]
        rw [ih l2 xs (o + x) htail]
        congr 1
        simp only [AssetMeta.toBytes, hc, ht]

/-- Core of the amended round-trip claim C1: walking a slot table emitted by
`to_bytes` (offset-updated metas of `es` followed by a sentinel meta whose
offset bounds the final payload) over the emitted data region re-parses every
entry into one with the same payload bytes, the same `c_flag`/`t_flag` pair
and the same payload presence. -/
theorem walkEntries_roundtrip (zip unzip : List Nat → List Nat)
    (hzu : ∀ b, unzip (zip b) = b) (D0 : List Nat) :
    ∀ (es : List AssetEntry) (o i seg prev : Nat) (sm : AssetMeta)
      (tail0 : List Nat),
      (∀ e ∈ es, (e.data = none ↔ e.meta.t_flag = 4)) →
      (∀ k e a, es.get? k = some e → e.data = some a →
        (from_seg_indx_and_bytes
          ((segSpecAux seg prev (es.map (fun x => x.meta.t_flag))).getD k 0)
          (i + k) a.toBytes).map Asset.toBytes = some a.toBytes) →
      D0.drop o = (es.map (payloadBytes zip)).flatten ++ tail0 →
      o ≤ D0.length →
      sm.offset = o + ((es.map (payloadBytes zip)).flatten).length →
      ∃ es', walkEntries unzip D0 i seg prev
          ((updateOffsets es
            (es.map (fun a => (payloadBytes zip a).length)) o).map
            AssetEntry.meta ++ [sm]) = some es' ∧
        es'.map (payloadBytes zip) = es.map (payloadBytes zip) ∧
        es'.map (fun e => (e.meta.c_flag, e.meta.t_flag)) =
          es.map (fun e => (e.meta.c_flag, e.meta.t_flag)) ∧
        es'.map (fun e => e.data.isSome) = es.map (fun e => e.data.isSome) := by
  intro es
  induction es with
  | nil =>
    intro o i seg prev sm tail0 _ _ _ _ _
    exact ⟨[], rfl, rfl, rfl, rfl⟩
  | cons e es ih =>
    intro o i seg prev sm tail0 hwf4 hrt hD hole hsm
    have hmetas : (updateOffsets (e :: es)
        ((e :: es).map (fun a => (payloadBytes zip a).length)) o).map
          AssetEntry.meta ++ [sm] =
        { e.meta with offset := o } ::
          ((updateOffsets es
            (es.map (fun a => (payloadBytes zip a).length))
            (o + (payloadBytes zip e).length)).map AssetEntry.meta ++ [sm]) :=
      rfl
    obtain ⟨next, rest2, hLsplit, hnextoff⟩ : ∃ next rest2,
        (updateOffsets es (es.map (fun a => (payloadBytes zip a).length))
          (o + (payloadBytes zip e).length)).map AssetEntry.meta ++ [sm] =
          next :: rest2 ∧ next.offset = o + (payloadBytes zip e).length := by
      cases es with
      | nil =>
        refine ⟨sm, [], rfl, ?_⟩
        rw [hsm]
        simp
      | cons e2 es2 => exact ⟨_, _, rfl, rfl⟩
    rw [hmetas, hLsplit, walkEntries]
    simp only [List.map_cons, List.flatten_cons, List.append_assoc,
      List.length_append] at hD hsm
    have hDlen := congrArg List.length hD
    simp only [List.length_drop, List.length_append] at hDlen
    by_cases h4 : e.meta.t_flag = 4
    · have hnone : e.data = none := (hwf4 e (by simp)).mpr h4
      have hpbe : payloadBytes zip e = [] := by
        simp [payloadBytes, hnone]
      rw [if_pos h4]
      have hrt2 : ∀ k e2 a, es.get? k = some e2 → e2.data = some a →
          (from_seg_indx_and_bytes
            ((segSpecAux seg prev (es.map (fun x => x.meta.t_flag))).getD k 0)
            ((i + 1) + k) a.toBytes).map Asset.toBytes = some a.toBytes := by
        intro k e2 a hk ha
        have hx := hrt (k + 1) e2 a (by simpa using hk) ha
        rw [show i + (k + 1) = (i + 1) + k from by omega] at hx
        rw [show segSpecAux seg prev ((e :: es).map (fun x => x.meta.t_flag))
            = 0 :: segSpecAux seg prev (es.map (fun x => x.meta.t_flag)) from
          by rw [List.map_cons, segSpecAux, if_pos h4]] at hx
        exact hx
      obtain ⟨tail', htail', hp1, hp2, hp3⟩ :=
        ih (o + (payloadBytes zip e).length) (i + 1) seg prev sm tail0
          (fun x hx => hwf4 x (by simp [hx])) hrt2
          (by rw [hpbe]; simpa [hpbe] using hD)
          (by rw [hpbe]; simpa using hole)
          (by rw [hsm]; omega)
      rw [← hLsplit, htail']
      refine ⟨⟨i, 0, { e.meta with offset := o }, none⟩ :: tail',
        rfl, ?_, ?_, ?_⟩
      · simp only [List.map_cons, hp1, hpbe]
        rfl
      · simp only [List.map_cons, hp2]
      · simp only [List.map_cons, hp3, hnone]
    · rw [if_neg h4]
      cases hda : e.data with
      | none => exact absurd ((hwf4 e (by simp)).mp hda) h4
      | some a =>
      have hbound : o + (payloadBytes zip e).length ≤ D0.length := by
        omega
      rw [hnextoff]
      rw [if_pos ⟨Nat.le_add_right o _, hbound⟩]
      dsimp only
      rw [show o + (payloadBytes zip e).length - o =
        (payloadBytes zip e).length from by omega]
      rw [hD]
      rw [take_append_of_length (payloadBytes zip e) _ _ rfl]
      have hdecomp : (if ({ e.meta with offset := o } : AssetMeta).c_flag =
          true then unzip (payloadBytes zip e) else payloadBytes zip e) =
          a.toBytes := by
        cases hcf : e.meta.c_flag <;> simp [payloadBytes, hda, hcf, hzu]
      rw [hdecomp]
      have hrt0 := hrt 0 e a rfl hda
      by_cases hc : e.meta.t_flag ≠ 2 ∧ (prev &&& 2) ≠ (e.meta.t_flag &&& 2)
      · rw [show (if ({ e.meta with offset := o } : AssetMeta).t_flag ≠ 2 ∧
            (prev &&& 2) ≠ (({ e.meta with offset := o } : AssetMeta).t_flag
              &&& 2) then (seg + 1, ({ e.meta with offset := o } :
              AssetMeta).t_flag) else (seg, prev)) =
          (seg + 1, e.meta.t_flag) from if_pos hc]
        dsimp only
        rw [show segSpecAux seg prev ((e :: es).map (fun x => x.meta.t_flag))
            = (seg + 1) :: segSpecAux (seg + 1) e.meta.t_flag
              (es.map (fun x => x.meta.t_flag)) from
          by rw [List.map_cons, segSpecAux, if_neg h4, if_pos hc]] at hrt0
        rw [show i + 0 = i from rfl] at hrt0
        simp only [List.getD_cons_zero] at hrt0
        obtain ⟨a2, ha2, ha2b⟩ := Option.map_eq_some'.mp hrt0
        rw [ha2, Option.some_bind]
        have hrt2 : ∀ k e2 a3, es.get? k = some e2 → e2.data = some a3 →
            (from_seg_indx_and_bytes
              ((segSpecAux (seg + 1) e.meta.t_flag
                (es.map (fun x => x.meta.t_flag))).getD k 0)
              ((i + 1) + k) a3.toBytes).map Asset.toBytes =
              some a3.toBytes := by
          intro k e2 a3 hk ha3
          have hx := hrt (k + 1) e2 a3 (by simpa using hk) ha3
          rw [show i + (k + 1) = (i + 1) + k from by omega] at hx
          rw [show segSpecAux seg prev
              ((e :: es).map (fun x => x.meta.t_flag)) = (seg + 1) ::
              segSpecAux (seg + 1) e.meta.t_flag
                (es.map (fun x => x.meta.t_flag)) from
            by rw [List.map_cons, segSpecAux, if_neg h4, if_pos hc]] at hx
          exact hx
        obtain ⟨tail', htail', hp1, hp2, hp3⟩ :=
          ih (o + (payloadBytes zip e).length) (i + 1) (seg + 1)
            e.meta.t_flag sm tail0
            (fun x hx => hwf4 x (by simp [hx])) hrt2
            (by rw [show D0.drop (o + (payloadBytes zip e).length) =
                  (D0.drop o).drop (payloadBytes zip e).length from
                  (List.drop_drop _ _ _).symm]
                rw [hD]
                rw [drop_append_of_length (payloadBytes zip e) _ _ rfl])
            (by omega)
            (by rw [hsm]; omega)
        rw [← hLsplit, htail']
        refine ⟨⟨i, seg + 1, { e.meta with offset := o }, some a2⟩ :: tail',
          rfl, ?_, ?_, ?_⟩
        · simp only [List.map_cons, hp1]
          rw [show payloadBytes zip
            ⟨i, seg + 1, { e.meta with offset := o }, some a2⟩ =
            (if e.meta.c_flag then zip a2.toBytes else a2.toBytes) from rfl]
          rw [ha2b]
          rw [show (if e.meta.c_flag then zip a.toBytes else a.toBytes) =
            payloadBytes zip e from by simp [payloadBytes, hda]]
        · simp only [List.map_cons, hp2]
        · simp only [List.map_cons, hp3, hda]
          rfl
      · rw [show (if ({ e.meta with offset := o } : AssetMeta).t_flag ≠ 2 ∧
            (prev &&& 2) ≠ (({ e.meta with offset := o } : AssetMeta).t_flag
              &&& 2) then (seg + 1, ({ e.meta with offset := o } :
              AssetMeta).t_flag) else (seg, prev)) =
          (seg, prev) from if_neg hc]
        dsimp only
        rw [show segSpecAux seg prev ((e :: es).map (fun x => x.meta.t_flag))
            = seg :: segSpecAux seg prev
              (es.map (fun x => x.meta.t_flag)) from
          by rw [List.map_cons, segSpecAux, if_neg h4, if_neg hc]] at hrt0
        rw [show i + 0 = i from rfl] at hrt0
        simp only [List.getD_cons_zero] at hrt0
        obtain ⟨a2, ha2, ha2b⟩ := Option.map_eq_some'.mp hrt0
        rw [ha2, Option.some_bind]
        have hrt2 : ∀ k e2 a3, es.get? k = some e2 → e2.data = some a3 →
            (from_seg_indx_and_bytes
              ((segSpecAux seg prev
                (es.map (fun x => x.meta.t_flag))).getD k 0)
              ((i + 1) + k) a3.toBytes).map Asset.toBytes =
              some a3.toBytes := by
          intro k e2 a3 hk ha3
          have hx := hrt (k + 1) e2 a3 (by simpa using hk) ha3
          rw [show i + (k + 1) = (i + 1) + k from by omega] at hx
          rw [show segSpecAux seg prev
              ((e :: es).map (fun x => x.meta.t_flag)) = seg ::
              segSpecAux seg prev (es.map (fun x => x.meta.t_flag)) from
            by rw [List.map_cons, segSpecAux, if_neg h4, if_neg hc]] at hx
          exact hx
        obtain ⟨tail', htail', hp1, hp2, hp3⟩ :=
          ih (o + (payloadBytes zip e).length) (i + 1) seg prev sm tail0
            (fun x hx => hwf4 x (by simp [hx])) hrt2
            (by rw [show D0.drop (o + (payloadBytes zip e).length) =
                  (D0.drop o).drop (payloadBytes zip e).length from
                  (List.drop_drop _ _ _).symm]
                rw [hD]
                rw [drop_append_of_length (payloadBytes zip e) _ _ rfl])
            (by omega)
            (by rw [hsm]; omega)
        rw [← hLsplit, htail']
        refine ⟨⟨i, seg, { e.meta with offset := o }, some a2⟩ :: tail',
          rfl, ?_, ?_, ?_⟩
        · simp only [List.map_cons, hp1]
          rw [show payloadBytes zip
            ⟨i, seg, { e.meta with offset := o }, some a2⟩ =
            (if e.meta.c_flag then zip a2.toBytes else a2.toBytes) from rfl]
          rw [ha2b]
          rw [show (if e.meta.c_flag then zip a.toBytes else a.toBytes) =
            payloadBytes zip e from by simp [payloadBytes, hda]]
        · simp only [List.map_cons, hp2]
        · simp only [List.map_cons, hp3, hda]
          rfl

/-- Evaluation of `AssetFolder::to_bytes` on a folder whose last entry has a
payload: the sentinel slot is pushed, offsets are assigned by the running
payload-size fold, and the count, reserved word, slot table and data regions
are emitted in order. -/
theorem toBytes_eval (zip : List Nat → List Nat) (l : List AssetEntry)
    (lastE : AssetEntry) (hlast : l.getLast? = some lastE)
    (hsome : lastE.data.isSome = true) :
    AssetFolder.toBytes zip ⟨l⟩ =
      some (u32be (l ++ [AssetEntry.new l.length]).length
          ++ [0xff, 0xff, 0xff, 0xff]
          ++ ((updateOffsets (l ++ [AssetEntry.new l.length])
                (((l ++ [AssetEntry.new l.length]).map
                  (payloadBytes zip)).map List.length) 0).map
              (fun a => a.meta.toBytes)).flatten
          ++ ((l ++ [AssetEntry.new l.length]).map (payloadBytes zip)).flatten,
        ⟨(updateOffsets (l ++ [AssetEntry.new l.length])
            (((l ++ [AssetEntry.new l.length]).map
              (payloadBytes zip)).map List.length) 0).dropLast⟩) := by
  rw [AssetFolder.toBytes]
  rw [hlast, Option.map_some']
  dsimp only
  rw [if_pos hsome]

/-- Evaluation of `AssetFolder::from_bytes` on a well-shaped archive: a
big-endian slot count, the reserved word, a slot table of `8 * cnt` bytes and
the data region. -/
theorem fromBytes_eval (unzip : List Nat → List Nat) (cnt : Nat)
    (hcnt : cnt < 2 ^ 32) (T Dp : List Nat) (hT : T.length = 8 * cnt) :
    AssetFolder.fromBytes unzip
        (u32be cnt ++ [0xff, 0xff, 0xff, 0xff] ++ T ++ Dp) =
      (walkEntries unzip Dp 0 0 0x3
        ((chunksExact 8 T).map AssetMeta.fromBytes)).map
        (fun lft => ⟨lft⟩) := by
  have hassoc : u32be cnt ++ [0xff, 0xff, 0xff, 0xff] ++ T ++ Dp =
      (u32be cnt ++ [0xff, 0xff, 0xff, 0xff]) ++ (T ++ Dp) := by
    simp only [List.append_assoc]
  rw [AssetFolder.fromBytes]
  rw [if_neg (by
    simp only [List.length_append, u32be, List.length_cons, List.length_nil]
    omega)]
  dsimp only
  have hdrop8 : List.drop 8 (u32be cnt ++ [0xff, 0xff, 0xff, 0xff] ++ T ++ Dp)
      = T ++ Dp := by
    rw [hassoc]
    exact drop_append_of_length (u32be cnt ++ [0xff, 0xff, 0xff, 0xff])
      (T ++ Dp) 8 (by simp [u32be])
  rw [hdrop8]
  have hg : ∀ n, n < 4 →
      (u32be cnt ++ [0xff, 0xff, 0xff, 0xff] ++ T ++ Dp).getD n 0 =
        (u32be cnt).getD n 0 := by
    intro n hn
    rw [show u32be cnt ++ [0xff, 0xff, 0xff, 0xff] ++ T ++ Dp =
      u32be cnt ++ ([0xff, 0xff, 0xff, 0xff] ++ T ++ Dp) from by
      simp only [List.append_assoc]]
    have hlen4 : n < (u32be cnt).length := by
      simp only [u32be, List.length_cons, List.length_nil]
      omega
    exact List.getD_append _ _ _ n hlen4
  rw [hg 0 (by omega), hg 1 (by omega), hg 2 (by omega), hg 3 (by omega)]
  rw [show u32dec ((u32be cnt).getD 0 0) ((u32be cnt).getD 1 0)
      ((u32be cnt).getD 2 0) ((u32be cnt).getD 3 0) = cnt from by
    simp only [u32be, List.getD_cons_zero, List.getD_cons_succ]
    exact u32dec_u32be cnt hcnt]
  rw [if_neg (by simp only [List.length_append, hT]; omega)]
  rw [take_append_of_length T Dp _ hT, drop_append_of_length T Dp _ hT]

/-- C1, amended: the round-trip holds on the image of the construct
direction. For any folder whose last entry carries a payload, whose entries
lack a payload exactly on type-flag-4 slots, whose type flags fit `u16`,
whose slot count and total payload size fit `u32`, where `unzip` inverts
`zip`, and where each payload re-parses at its assigned segment to an asset
serialising to the same bytes, the archive emitted by `AssetFolder::to_bytes`
and zero-padded to a 16-byte boundary is a fixed point of
extract-then-construct: `from_bytes` re-reads it and `to_bytes` followed by
the same padding re-emits exactly the same bytes. -/
theorem archive_roundtrip_amended (zip unzip : List Nat → List Nat)
    (hzu : ∀ b, unzip (zip b) = b) (f : AssetFolder) (lastE : AssetEntry)
    (hlast : f.assets.getLast? = some lastE)
    (hlastSome : lastE.data.isSome = true)
    (hwf4 : ∀ e ∈ f.assets, (e.data = none ↔ e.meta.t_flag = 4))
    (htf : ∀ e ∈ f.assets, e.meta.t_flag < 65536)
    (hcnt : f.assets.length + 1 < 2 ^ 32)
    (hdl : ((f.assets.map (payloadBytes zip)).flatten).length < 2 ^ 32)
    (hrt : ∀ k e a, f.assets.get? k = some e → e.data = some a →
      (from_seg_indx_and_bytes
        ((segSpecAux 0 0x3
          (f.assets.map (fun x => x.meta.t_flag))).getD k 0)
        k a.toBytes).map Asset.toBytes = some a.toBytes)
    (out : List Nat) (fol : AssetFolder)
    (hout : AssetFolder.toBytes zip f = some (out, fol)) :
    (AssetFolder.fromBytes unzip (pad16 out)).bind
        (fun f2 => (AssetFolder.toBytes zip f2).map (fun p => pad16 p.1)) =
      some (pad16 out) := by
  have hsum : (f.assets.map (fun a => (payloadBytes zip a).length)).sum =
      ((f.assets.map (payloadBytes zip)).flatten).length := by
    rw [List.length_flatten, List.map_map]
    rfl
  have hmapnew : (f.assets ++ [AssetEntry.new f.assets.length]).map
      (payloadBytes zip) = f.assets.map (payloadBytes zip) ++ [[]] := by
    rw [List.map_append]
    rfl
  have hszsplit : (f.assets.map (payloadBytes zip) ++ [[]]).map List.length =
      f.assets.map (fun a => (payloadBytes zip a).length) ++ [0] := by
    rw [List.map_append, List.map_map]
    rfl
  have hflsplit : (f.assets.map (payloadBytes zip) ++ [[]]).flatten =
      (f.assets.map (payloadBytes zip)).flatten := by
    rw [List.flatten_append]
    simp
  have hA2split : updateOffsets (f.assets ++ [AssetEntry.new f.assets.length])
      (f.assets.map (fun a => (payloadBytes zip a).length) ++ [0]) 0 =
      updateOffsets f.assets
          (f.assets.map (fun a => (payloadBytes zip a).length)) 0 ++
        [⟨f.assets.length, 0,
          ⟨((f.assets.map (payloadBytes zip)).flatten).length, false, 4⟩,
          none⟩] := by
    rw [updateOffsets_append f.assets [AssetEntry.new f.assets.length]
      (f.assets.map (fun a => (payloadBytes zip a).length)) [0] 0 (by simp)]
    rw [Nat.zero_add, hsum]
    rfl
  have hlennew : (f.assets ++ [AssetEntry.new f.assets.length]).length =
      f.assets.length + 1 := by simp
  have h1 := toBytes_eval zip f.assets lastE hlast hlastSome
  rw [show (⟨f.assets⟩ : AssetFolder) = f from rfl] at h1
  rw [hmapnew, hszsplit, hflsplit, hA2split, hlennew] at h1
  rw [h1, Option.some.injEq, Prod.mk.injEq] at hout
  obtain ⟨hO, _⟩ := hout
  obtain ⟨R, hR⟩ : ∃ R, pad16 out = out ++ R := ⟨_, rfl⟩
  have hform : pad16 out =
      u32be (f.assets.length + 1) ++ [0xff, 0xff, 0xff, 0xff] ++
        ((updateOffsets f.assets
            (f.assets.map (fun a => (payloadBytes zip a).length)) 0 ++
          [(⟨f.assets.length, 0,
            ⟨((f.assets.map (payloadBytes zip)).flatten).length, false,
              4⟩, none⟩ : AssetEntry)]).map
          (fun a => a.meta.toBytes)).flatten ++
        ((f.assets.map (payloadBytes zip)).flatten ++ R) := by
    rw [hR, ← hO]
    simp only [List.append_assoc]
  have hTBlen : (((updateOffsets f.assets
      (f.assets.map (fun a => (payloadBytes zip a).length)) 0 ++
        [(⟨f.assets.length, 0,
          ⟨((f.assets.map (payloadBytes zip)).flatten).length, false, 4⟩,
          none⟩ : AssetEntry)]).map
        (fun a => a.meta.toBytes)).flatten).length =
      8 * (f.assets.length + 1) := by
    rw [flatten_length_const 8 _ (fun e he => by
      obtain ⟨a, _, rfl⟩ := List.mem_map.mp he
      rfl)]
    rw [List.length_map, List.length_append,
      length_updateOffsets _ _ _ (by simp)]
    rfl
  have hchunk : (chunksExact 8
      (((updateOffsets f.assets
          (f.assets.map (fun a => (payloadBytes zip a).length)) 0 ++
        [(⟨f.assets.length, 0,
          ⟨((f.assets.map (payloadBytes zip)).flatten).length, false, 4⟩,
          none⟩ : AssetEntry)]).map (fun a => a.meta.toBytes)).flatten)).map
        AssetMeta.fromBytes =
      (updateOffsets f.assets
          (f.assets.map (fun a => (payloadBytes zip a).length)) 0).map
        AssetEntry.meta ++
        [(⟨((f.assets.map (payloadBytes zip)).flatten).length, false, 4⟩ :
          AssetMeta)] := by
    rw [chunksExact_flatten 8
      ((updateOffsets f.assets
          (f.assets.map (fun a => (payloadBytes zip a).length)) 0 ++
        [(⟨f.assets.length, 0,
          ⟨((f.assets.map (payloadBytes zip)).flatten).length, false, 4⟩,
          none⟩ : AssetEntry)]).map (fun a => a.meta.toBytes))
      (by omega)
      (fun e he => by
        obtain ⟨a, _, rfl⟩ := List.mem_map.mp he
        rfl)]
    rw [List.map_map, List.map_append]
    congr 1
    · refine List.map_congr_left (fun a ha => ?_)
      obtain ⟨e, he, _, _, h3, _, h5⟩ := updateOffsets_mem _ _ _ a ha
      show AssetMeta.fromBytes a.meta.toBytes = a.meta
      refine metaRound a.meta (by omega) ?_
      rw [h3]
      exact htf e he
    · show [AssetMeta.fromBytes (AssetMeta.toBytes
        ⟨((f.assets.map (payloadBytes zip)).flatten).length, false, 4⟩)] = _
      rw [metaRound
        ⟨((f.assets.map (payloadBytes zip)).flatten).length, false, 4⟩ hdl
        (by show (4 : Nat) < 65536; omega)]
  rw [hform]
  rw [fromBytes_eval unzip (f.assets.length + 1) hcnt _ _ hTBlen]
  rw [hchunk]
  have hrt' : ∀ k e a, f.assets.get? k = some e → e.data = some a →
      (from_seg_indx_and_bytes
        ((segSpecAux 0 0x3
          (f.assets.map (fun x => x.meta.t_flag))).getD k 0)
        (0 + k) a.toBytes).map Asset.toBytes = some a.toBytes := by
    intro k e a hk ha
    rw [from_seg_irrel _ (0 + k) k]
    exact hrt k e a hk ha
  obtain ⟨es', hwalk, hp1, hp2, hp3⟩ :=
    walkEntries_roundtrip zip unzip hzu
      ((f.assets.map (payloadBytes zip)).flatten ++ R) f.assets 0 0 0 0x3
      ⟨((f.assets.map (payloadBytes zip)).flatten).length, false, 4⟩ R
      hwf4 hrt' rfl (Nat.zero_le _) (Nat.zero_add _).symm
  rw [hwalk, Option.map_some', Option.some_bind]
  have hlast2 := congrArg List.getLast? hp3
  simp only [List.getLast?_map, hlast, Option.map_some', hlastSome] at hlast2
  obtain ⟨L2, hL2, hL2some⟩ := Option.map_eq_some'.mp hlast2
  rw [toBytes_eval zip es' L2 hL2 hL2some, Option.map_some']
  dsimp only
  have hlen2 : es'.length = f.assets.length := by
    have h := congrArg List.length hp1
    simpa using h
  rw [hlen2]
  have hmap2 : (es' ++ [AssetEntry.new f.assets.length]).map
      (payloadBytes zip) = f.assets.map (payloadBytes zip) ++ [[]] := by
    rw [List.map_append, hp1]
    rfl
  have hlennew2 : (es' ++ [AssetEntry.new f.assets.length]).length =
      f.assets.length + 1 := by simp [hlen2]
  rw [hlennew2, hmap2, hszsplit, hflsplit]
  rw [updateOffsets_map_metaBytes (es' ++ [AssetEntry.new f.assets.length])
    (f.assets ++ [AssetEntry.new f.assets.length])
    (f.assets.map (fun a => (payloadBytes zip a).length) ++ [0]) 0
    (by rw [List.map_append, List.map_append, hp2])]
  rw [hA2split]
  rw [hO, hform]

theorem archive_roundtrip_amended_witness :
    (AssetFolder.fromBytes id (pad16 [0x00, 0x00, 0x00, 0x02,
        0xFF, 0xFF, 0xFF, 0xFF,
        0x00, 0x00, 0x00, 0x00, 0x00, 0x00, 0x00, 0x02,
        0x00, 0x00, 0x00, 0x01, 0x00, 0x00, 0x00, 0x04, 0x07])).bind
        (fun f2 => (AssetFolder.toBytes id f2).map (fun p => pad16 p.1)) =
      some (pad16 [0x00, 0x00, 0x00, 0x02,
        0xFF, 0xFF, 0xFF, 0xFF,
        0x00, 0x00, 0x00, 0x00, 0x00, 0x00, 0x00, 0x02,
        0x00, 0x00, 0x00, 0x01, 0x00, 0x00, 0x00, 0x04, 0x07]) :=
  archive_roundtrip_amended id id (fun _ => rfl)
    ⟨[⟨0, 0, ⟨0, false, 2⟩, some (.anim [7])⟩]⟩
    ⟨0, 0, ⟨0, false, 2⟩, some (.anim [7])⟩
    rfl rfl
    (by decide)
    (by decide)
    (by decide)
    (by decide)
    (by intro k e a hk ha
        cases k with
        | zero =>
          injection hk with he
          subst he
          injection ha with ha2
          subst ha2
          decide
        | succ k => exact Option.noConfusion hk)
    [0x00, 0x00, 0x00, 0x02, 0xFF, 0xFF, 0xFF, 0xFF,
     0x00, 0x00, 0x00, 0x00, 0x00, 0x00, 0x00, 0x02,
     0x00, 0x00, 0x00, 0x01, 0x00, 0x00, 0x00, 0x04, 0x07]
    ⟨[⟨0, 0, ⟨0, false, 2⟩, some (.anim [7])⟩]⟩
    (by decide)

end BK
